import Mathlib

/-!
# Streaming XML writer (`src/XMLWriter.cpp`)

A shallow embedding of `CXMLWriter::SImplementation` and the properties of its
deferred-flush state machine.

Modelling conventions

* `std::string` is a list of characters (`Str`); a `char` is a `Char`.
* `std::vector<PendingElement>` is a list whose head is the vector's `back()`.
* `size_t IndentLevel` is a natural number kept below `2 ^ 64`; `++` and `--`
  are computed modulo `2 ^ 64`.
* The data sink is external to the writer.  Its behaviour is a function telling,
  from the calls made so far and the buffer offered, whether a `Write` call is
  accepted; the writer state carries the record of all `Write` calls.
-/

namespace XMLWriter

/-- The type `std::string`. -/
abbrev Str := List Char

/-- Number of values of `size_t`. -/
abbrev SIZE_RANGE : Nat := 2 ^ 64

/-- The enumeration `SXMLEntity::EType`. -/
inductive EType where
  | StartElement
  | EndElement
  | CharData
  | CompleteElement
  deriving DecidableEq, Repr

/-- The event type `SXMLEntity`: kind, name (or text for `CharData`), and the
attribute name/value pairs in order. -/
structure SXMLEntity where
  DType : EType
  DNameData : Str
  DAttributes : List (Str × Str)
  deriving DecidableEq, Repr

/-- The frame type `PendingElement`. -/
structure PendingElement where
  entity : SXMLEntity
  flushed : Bool := false
  hasElementChild : Bool := false
  hasTextChild : Bool := false
  deriving DecidableEq, Repr

/-- Behaviour of a `CDataSink`: given the earlier `Write` calls (buffer and
result, oldest first) and the buffer now offered, whether the call succeeds. -/
abbrev SinkBehaviour := List (Str × Bool) → Str → Bool

/-- The sink of `CStringDataSink`, which accepts every write. -/
def acceptAll : SinkBehaviour := fun _ _ => true

/-- The writer state `SImplementation`: the record of the calls made on `dsink`,
the indentation counter and the stack of open elements (head = `back()`). -/
structure SImplementation where
  dsink : List (Str × Bool) := []
  IndentLevel : Nat := 0
  pendingStack : List PendingElement := []
  deriving DecidableEq, Repr

/-- A writer just constructed. -/
def fresh : SImplementation := {}

/-- Bytes held by the sink: the accepted buffers in call order. -/
def sinkString (s : SImplementation) : Str :=
  (s.dsink.filter (fun c => c.2)).flatMap (fun c => c.1)

/-- The buffers offered to the sink, in call order. -/
def sinkCalls (s : SImplementation) : List Str :=
  s.dsink.map (fun c => c.1)

/-- `WriteRaw`: offer `data` to the sink and return the sink's answer. -/
def WriteRaw (sink : SinkBehaviour) (s : SImplementation) (data : Str) :
    Bool × SImplementation :=
  let ok := sink s.dsink data
  (ok, { s with dsink := s.dsink ++ [(data, ok)] })

/-- Body of the loop of `EscapeXML`: the `switch` on one character. -/
def escapeStep (output : Str) (ch : Char) : Str :=
  if ch = '&' then output ++ "&amp;".toList
  else if ch = '"' then output ++ "&quot;".toList
  else if ch = '\'' then output ++ "&apos;".toList
  else if ch = '<' then output ++ "&lt;".toList
  else if ch = '>' then output ++ "&gt;".toList
  else output ++ [ch]

/-- `EscapeXML`: the loop runs over the characters of `input`, starting from the
empty `output`. -/
def EscapeXML (input : Str) : Str :=
  input.foldl escapeStep []

/-- The attribute loop shared by the three tag builders: appends
`" " + name + "=\"" + EscapeXML(value) + "\""` for each attribute in order. -/
def appendAttributes (output : Str) (attrs : List (Str × Str)) : Str :=
  attrs.foldl
    (fun out attr => out ++ (" ".toList ++ attr.1 ++ "=\"".toList ++ EscapeXML attr.2 ++ "\"".toList))
    output

/-- The text `"<" + name + attributes + ">"` built in `FlushPending` and in the
unflushed branch of `WriteEndElement`. -/
def openTagText (e : SXMLEntity) : Str :=
  appendAttributes ("<".toList ++ e.DNameData) e.DAttributes ++ ">".toList

/-- `std::string(IndentLevel, '\t')` preceded by a newline. -/
def indentText (level : Nat) : Str :=
  "\n".toList ++ List.replicate level '\t'

/-- `ShouldIndent`. -/
def ShouldIndent (s : SImplementation) : Bool :=
  match s.pendingStack with
  | [] => decide (s.IndentLevel > 0)
  | parent :: _ =>
    if parent.entity.DNameData = "osm".toList then false
    else decide (s.IndentLevel > 0)

/-- `FlushPending`: write the opening tag of the top frame if it is unflushed. -/
def FlushPending (sink : SinkBehaviour) (s : SImplementation) : Bool × SImplementation :=
  match s.pendingStack with
  | pe :: rest =>
    if !pe.flushed then
      let output := openTagText pe.entity
      let r := WriteRaw sink s output
      if !r.1 then (false, r.2)
      else
        (true, { r.2 with
          pendingStack := { pe with flushed := true } :: rest
          IndentLevel := (r.2.IndentLevel + 1) % SIZE_RANGE })
    else (true, s)
  | [] => (true, s)

/-- The statement `pendingStack.back().hasElementChild = true` under its guard. -/
def markElementChild (s : SImplementation) : SImplementation :=
  match s.pendingStack with
  | pe :: rest => { s with pendingStack := { pe with hasElementChild := true } :: rest }
  | [] => s

/-- The statement `pendingStack.back().hasTextChild = true` under its guard. -/
def markTextChild (s : SImplementation) : SImplementation :=
  match s.pendingStack with
  | pe :: rest => { s with pendingStack := { pe with hasTextChild := true } :: rest }
  | [] => s

/-- `WriteStartElement`. -/
def WriteStartElement (sink : SinkBehaviour) (s : SImplementation) (entity : SXMLEntity) :
    Bool × SImplementation :=
  let r := FlushPending sink s
  if !r.1 then (false, r.2)
  else
    let s1 := markElementChild r.2
    (true, { s1 with pendingStack := { entity := entity } :: s1.pendingStack })

/-- `WriteCharData`. -/
def WriteCharData (sink : SinkBehaviour) (s : SImplementation) (entity : SXMLEntity) :
    Bool × SImplementation :=
  let r := FlushPending sink s
  if !r.1 then (false, r.2)
  else
    let s1 := markTextChild r.2
    WriteRaw sink s1 (EscapeXML entity.DNameData)

/-- `WriteCompleteElement`. -/
def WriteCompleteElement (sink : SinkBehaviour) (s : SImplementation) (entity : SXMLEntity) :
    Bool × SImplementation :=
  let r := FlushPending sink s
  if !r.1 then (false, r.2)
  else
    let s1 := markElementChild r.2
    let output : Str := if ShouldIndent s1 then indentText s1.IndentLevel else []
    let output := appendAttributes (output ++ ("<".toList ++ entity.DNameData)) entity.DAttributes
    WriteRaw sink s1 (output ++ "/>".toList)

/-- `WriteEndElement`; the entity passed in is not looked at. -/
def WriteEndElement (sink : SinkBehaviour) (s : SImplementation) (_entity : SXMLEntity) :
    Bool × SImplementation :=
  match s.pendingStack with
  | [] => (false, s)
  | pe :: rest =>
    let s0 : SImplementation := { s with pendingStack := rest }
    if !pe.flushed then
      let openTag : Str := if ShouldIndent s0 then indentText s0.IndentLevel else []
      let openTag :=
        appendAttributes (openTag ++ ("<".toList ++ pe.entity.DNameData)) pe.entity.DAttributes
          ++ ">".toList
      let r := WriteRaw sink s0 openTag
      if !r.1 then (false, r.2)
      else
        let s1 : SImplementation :=
          { r.2 with IndentLevel := (r.2.IndentLevel + 1) % SIZE_RANGE }
        let s2 : SImplementation :=
          { s1 with IndentLevel := (s1.IndentLevel + SIZE_RANGE - 1) % SIZE_RANGE }
        let closeTag : Str :=
          if pe.hasElementChild && ShouldIndent s2 then indentText s2.IndentLevel else []
        WriteRaw sink s2 (closeTag ++ ("</".toList ++ pe.entity.DNameData ++ ">".toList))
    else
      let s2 : SImplementation :=
        { s0 with IndentLevel := (s0.IndentLevel + SIZE_RANGE - 1) % SIZE_RANGE }
      let closeTag : Str :=
        if pe.hasElementChild && ShouldIndent s2 then indentText s2.IndentLevel else []
      WriteRaw sink s2 (closeTag ++ ("</".toList ++ pe.entity.DNameData ++ ">".toList))

/-- `WriteEntity`: dispatch on the entity type.  The `default` branch of the
`switch` has no case here: `EType` has the four values only. -/
def WriteEntity (sink : SinkBehaviour) (s : SImplementation) (entity : SXMLEntity) :
    Bool × SImplementation :=
  match entity.DType with
  | EType.StartElement => WriteStartElement sink s entity
  | EType.EndElement => WriteEndElement sink s entity
  | EType.CharData => WriteCharData sink s entity
  | EType.CompleteElement => WriteCompleteElement sink s entity

/-- The entity `SXMLEntity()` that `Flush` hands to `WriteEndElement`. -/
def defaultEntity : SXMLEntity := ⟨EType.EndElement, [], []⟩

/-- The loop of `Flush` run for at most `fuel` iterations; `none` when the fuel
runs out before the loop exits. -/
def FlushLoop (sink : SinkBehaviour) : Nat → SImplementation → Option (Bool × SImplementation)
  | 0, s => if s.pendingStack.isEmpty then some (true, s) else none
  | fuel + 1, s =>
    if s.pendingStack.isEmpty then some (true, s)
    else
      let r := WriteEndElement sink s defaultEntity
      if !r.1 then some (false, r.2)
      else FlushLoop sink fuel r.2

/-- `Flush`: the loop with one iteration available per open element. -/
def Flush (sink : SinkBehaviour) (s : SImplementation) : Option (Bool × SImplementation) :=
  FlushLoop sink s.pendingStack.length s

/-- A caller writing the entities of a list one after the other: the results of
the calls and the state after the last one. -/
def writeAll (sink : SinkBehaviour) (s : SImplementation) :
    List SXMLEntity → List Bool × SImplementation
  | [] => ([], s)
  | e :: es =>
    let r := WriteEntity sink s e
    let rs := writeAll sink r.2 es
    (r.1 :: rs.1, rs.2)

/-! ### Escaping and tag text as the specification words them -/

/-- The substitution of one character: the five special characters are replaced
by their entities, every other character stands for itself. -/
def substitute (c : Char) : Str :=
  if c = '&' then "&amp;".toList
  else if c = '"' then "&quot;".toList
  else if c = '\'' then "&apos;".toList
  else if c = '<' then "&lt;".toList
  else if c = '>' then "&gt;".toList
  else [c]

/-- The unescaping inverse: one pass from left to right which replaces each of
the five entities by its character and copies every other character. -/
def Unescape : Str → Str
  | '&' :: 'a' :: 'm' :: 'p' :: ';' :: rest => '&' :: Unescape rest
  | '&' :: 'q' :: 'u' :: 'o' :: 't' :: ';' :: rest => '"' :: Unescape rest
  | '&' :: 'a' :: 'p' :: 'o' :: 's' :: ';' :: rest => '\'' :: Unescape rest
  | '&' :: 'l' :: 't' :: ';' :: rest => '<' :: Unescape rest
  | '&' :: 'g' :: 't' :: ';' :: rest => '>' :: Unescape rest
  | c :: rest => c :: Unescape rest
  | [] => []

/-- The attribute text of a tag: for each attribute in order a blank, the name,
`="`, the escaped value and `"`. -/
def attributesText (attrs : List (Str × Str)) : Str :=
  attrs.flatMap
    (fun a => " ".toList ++ a.1 ++ "=\"".toList ++ EscapeXML a.2 ++ "\"".toList)

/-! ### Event sequences and reachable states -/

/-- Number of `StartElement` events in a sequence. -/
def countStart (evs : List SXMLEntity) : Nat :=
  evs.countP (fun e => decide (e.DType = EType.StartElement))

/-- Number of `EndElement` events in a sequence. -/
def countEnd (evs : List SXMLEntity) : Nat :=
  evs.countP (fun e => decide (e.DType = EType.EndElement))

/-- A balanced event sequence: no prefix has more `EndElement` than
`StartElement` events, and the whole sequence has as many of the one as of the
other. -/
def Balanced (evs : List SXMLEntity) : Prop :=
  (∀ k, k ≤ evs.length → countEnd (evs.take k) ≤ countStart (evs.take k)) ∧
    countStart evs = countEnd evs

instance instDecidableBalanced (evs : List SXMLEntity) : Decidable (Balanced evs) := by
  unfold Balanced; infer_instance

/-- The states a writer can be in between two operations: the fresh state, and
every state left by a `WriteEntity` or `Flush` call made in such a state, whatever
the calls returned. -/
inductive Reachable (sink : SinkBehaviour) : SImplementation → Prop where
  | fresh : Reachable sink fresh
  | write (s : SImplementation) (e : SXMLEntity) :
      Reachable sink s → Reachable sink (WriteEntity sink s e).2
  | flush (s : SImplementation) (r : Bool × SImplementation) :
      Reachable sink s → Flush sink s = some r → Reachable sink r.2

/-- The consistency conditions kept by every operation: `IndentLevel` counts the
flushed frames (modulo the range of `size_t`), every frame below the top is
flushed, and a frame is flushed exactly when a child has been recorded in it. -/
def Inv (s : SImplementation) : Prop :=
  s.IndentLevel = (s.pendingStack.countP (fun pe => pe.flushed)) % SIZE_RANGE ∧
  (∀ pe ∈ s.pendingStack.tail, pe.flushed = true) ∧
  (∀ pe ∈ s.pendingStack, pe.flushed = (pe.hasElementChild || pe.hasTextChild))

/-! ### Documents, their markup and their events -/

/-- Modelled from the spec: the parser (`XMLReader`) is not part of the sources.
A well-formed document is a tree of elements (name, attributes in order,
children) and character data. -/
inductive Node where
  | text (data : Str)
  | element (name : Str) (attrs : List (Str × Str)) (children : List Node)

mutual
/-- Modelled from the spec: the event sequence a parser yields for the markup of
a tree, in document order: `StartElement`, the events of the children,
`EndElement` for an element; `CharData` for character data that is not empty,
and no event for empty character data, which leaves no trace in the markup. -/
def events : Node → List SXMLEntity
  | .text data => if data.isEmpty then [] else [⟨EType.CharData, data, []⟩]
  | .element name attrs children =>
    ⟨EType.StartElement, name, attrs⟩ :: (eventsList children ++ [⟨EType.EndElement, name, []⟩])
/-- Modelled from the spec: the events of a list of sibling nodes. -/
def eventsList : List Node → List SXMLEntity
  | [] => []
  | c :: cs => events c ++ eventsList cs
end

mutual
/-- Modelled from the spec: the markup text of a tree written with no whitespace
between tags: opening tag with the attributes in order, the markup of the
children, closing tag; character data in escaped form. -/
def markup : Node → Str
  | .text data => EscapeXML data
  | .element name attrs children =>
    "<".toList ++ name ++ attributesText attrs ++ ">".toList ++ markupList children
      ++ "</".toList ++ name ++ ">".toList
/-- Modelled from the spec: the markup of a list of sibling nodes. -/
def markupList : List Node → Str
  | [] => []
  | c :: cs => markup c ++ markupList cs
end

/-- Whether a node is character data. -/
def Node.isText : Node → Bool
  | .text _ => true
  | .element _ _ _ => false

mutual
/-- A tree the writer renders without indentation.  Character data is never
empty.  `free` tells whether the node is the root or a child of an element named
`osm`; an element at any other place must have at least one child and character
data only. -/
def inlineOK (free : Bool) : Node → Bool
  | .text data => !data.isEmpty
  | .element name _ children =>
    (free || (!children.isEmpty && children.all Node.isText))
      && inlineOKList (decide (name = "osm".toList)) children
/-- The condition `inlineOK` for every node of a list of siblings. -/
def inlineOKList (free : Bool) : List Node → Bool
  | [] => true
  | c :: cs => inlineOK free c && inlineOKList free cs
end

mutual
/-- The sink calls made for the events of a node of an `inlineOK` tree: the
opening tag, the calls of the children, the closing tag. -/
def writes : Node → List (Str × Bool)
  | .text data => [(EscapeXML data, true)]
  | .element name attrs children =>
    (openTagText ⟨EType.StartElement, name, attrs⟩, true)
      :: (writesList children ++ [("</".toList ++ name ++ ">".toList, true)])
/-- The sink calls made for a list of sibling nodes. -/
def writesList : List Node → List (Str × Bool)
  | [] => []
  | c :: cs => writes c ++ writesList cs
end

/-- The flag a child node sets in the top frame. -/
def markChild (n : Node) (s : SImplementation) : SImplementation :=
  if n.isText then markTextChild s else markElementChild s

/-- The state after the events of a node of an `inlineOK` tree: the parent is
flushed and marked, and the calls of the node are added to the sink record. -/
def afterNode (s : SImplementation) (n : Node) : SImplementation :=
  { markChild n (FlushPending acceptAll s).2 with
    dsink := (FlushPending acceptAll s).2.dsink ++ writes n }

/-- A state in which `ShouldIndent` answers no for a child of the current top:
no open element and `IndentLevel` zero, or a top frame named `osm`. -/
def posOK (s : SImplementation) : Prop :=
  match s.pendingStack with
  | [] => s.IndentLevel = 0
  | p :: _ => p.entity.DNameData = "osm".toList

/-! ### Shape of escaped text -/

/-- Whether a string begins with one of the five entities. -/
def startsWithEntity (l : Str) : Bool :=
  "&amp;".toList.isPrefixOf l || "&quot;".toList.isPrefixOf l || "&apos;".toList.isPrefixOf l
    || "&lt;".toList.isPrefixOf l || "&gt;".toList.isPrefixOf l

/-! ### Tag texts -/

/-- The closing tag `"</" + name + ">"`. -/
def closeTagText (name : Str) : Str :=
  "</".toList ++ name ++ ">".toList

/-- The self-closing tag `"<" + name + attributes + "/>"`. -/
def completeTagText (e : SXMLEntity) : Str :=
  "<".toList ++ e.DNameData ++ attributesText e.DAttributes ++ "/>".toList

/-- The indentation prefix when `b` holds, nothing otherwise. -/
def indentIf (b : Bool) (level : Nat) : Str :=
  if b then indentText level else []

/-! ### Sink calls of one operation -/

/-- A run of sink calls ends at the first rejected one, and the operation that
made them then reports failure. -/
def StopsAtRejection (calls : List (Str × Bool)) (result : Bool) : Prop :=
  ∀ (before after : List (Str × Bool)) (d : Str),
    calls = before ++ (d, false) :: after → after = [] ∧ result = false

/-- Every call of a run was accepted. -/
def AllAccepted (calls : List (Str × Bool)) : Prop :=
  ∀ c ∈ calls, c.2 = true

/-- A sink that rejects every write. -/
def rejectAll : SinkBehaviour := fun _ _ => false

/-- A buffer without its leading newline and tab characters. -/
def stripIndent (d : Str) : Str :=
  d.dropWhile (fun c => c == '\n' || c == '\t')

/-- The tags that closing a frame puts out: the opening tag if the frame is
still unflushed, then the closing tag with the name of the frame. -/
def closingTags (f : PendingElement) : List Str :=
  (if f.flushed then [] else [openTagText f.entity]) ++ [closeTagText f.entity.DNameData]

/-! ### The kind of each sink call (accepting sink) -/

/-- What a buffer offered to the sink is, by the place of the code that built
it: the opening tag of a frame (in `FlushPending` or in the unflushed branch of
`WriteEndElement`), a closing tag, escaped character data, or a self-closing
tag. -/
inductive WriteKind where
  | openTag (e : SXMLEntity)
  | closeTag (name : Str)
  | text (data : Str)
  | complete (e : SXMLEntity)
  deriving DecidableEq, Repr

/-- A buffer is of a given kind: character data is the escaped text; a tag is the
tag text, possibly after an indentation prefix. -/
def KindMatches : WriteKind → Str → Prop
  | .openTag e, buf => ∃ (b : Bool) (j : Nat), buf = indentIf b j ++ openTagText e
  | .closeTag name, buf => ∃ (b : Bool) (j : Nat), buf = indentIf b j ++ closeTagText name
  | .text data, buf => buf = EscapeXML data
  | .complete e, buf => ∃ (b : Bool) (j : Nat), buf = indentIf b j ++ completeTagText e

/-- The call `FlushPending` makes: the opening tag of the top frame if that frame
is unflushed. -/
def FlushPendingKinds (s : SImplementation) : List WriteKind :=
  match s.pendingStack with
  | pe :: _ => if !pe.flushed then [WriteKind.openTag pe.entity] else []
  | [] => []

/-- The calls `WriteEndElement` makes for the frame it pops: the opening tag
first if the frame is unflushed, then the closing tag. -/
def closingKinds (pe : PendingElement) : List WriteKind :=
  if !pe.flushed then
    [WriteKind.openTag pe.entity, WriteKind.closeTag pe.entity.DNameData]
  else [WriteKind.closeTag pe.entity.DNameData]

/-- The calls `WriteEntity` makes on an accepting sink, in order. -/
def WriteEntityKinds (s : SImplementation) (entity : SXMLEntity) : List WriteKind :=
  match entity.DType with
  | EType.StartElement => FlushPendingKinds s
  | EType.EndElement =>
    match s.pendingStack with
    | [] => []
    | pe :: _ => closingKinds pe
  | EType.CharData => FlushPendingKinds s ++ [WriteKind.text entity.DNameData]
  | EType.CompleteElement => FlushPendingKinds s ++ [WriteKind.complete entity]

/-- The calls made for a list of events written one after the other to an
accepting sink. -/
def writeAllKinds (s : SImplementation) : List SXMLEntity → List WriteKind
  | [] => []
  | e :: es => WriteEntityKinds s e ++ writeAllKinds (WriteEntity acceptAll s e).2 es

/-- The calls `Flush` makes on an accepting sink: one `EndElement` per frame,
from the top of the stack down. -/
def FlushKinds (s : SImplementation) : List WriteKind :=
  s.pendingStack.flatMap closingKinds

/-- The entities whose opening tags occur in a list of calls, in order. -/
def openTags (ks : List WriteKind) : List SXMLEntity :=
  ks.filterMap (fun k => match k with
    | WriteKind.openTag e => some e
    | _ => none)

/-- The entity of the top frame if that frame is unflushed. -/
def pendingOpen (s : SImplementation) : List SXMLEntity :=
  match s.pendingStack with
  | pe :: _ => if pe.flushed then [] else [pe.entity]
  | [] => []

/-! ## Properties -/

/-! ### Escaping -/

theorem escapeStep_eq (output : Str) (ch : Char) :
    escapeStep output ch = output ++ substitute ch := by
  unfold escapeStep substitute
  split_ifs <;> simp

theorem foldl_escapeStep (s : Str) :
    ∀ acc, s.foldl escapeStep acc = acc ++ s.flatMap substitute := by
  induction s with
  | nil => intro acc; simp
  | cons c s ih =>
    intro acc
    simp [List.foldl_cons, ih, escapeStep_eq, List.flatMap_cons, List.append_assoc]

theorem EscapeXML_eq_flatMap (s : Str) : EscapeXML s = s.flatMap substitute := by
  simp [EscapeXML, foldl_escapeStep]

theorem EscapeXML_cons (c : Char) (s : Str) :
    EscapeXML (c :: s) = substitute c ++ EscapeXML s := by
  simp [EscapeXML_eq_flatMap, List.flatMap_cons]

theorem EscapeXML_append (a b : Str) :
    EscapeXML (a ++ b) = EscapeXML a ++ EscapeXML b := by
  simp [EscapeXML_eq_flatMap, List.flatMap_append]

theorem Unescape_other (c : Char) (r : Str) (h : c ≠ '&') :
    Unescape (c :: r) = c :: Unescape r := by
  rw [Unescape]
  all_goals (intros; simp_all)

theorem Unescape_substitute (c : Char) (r : Str) :
    Unescape (substitute c ++ r) = c :: Unescape r := by
  unfold substitute
  split_ifs with h1 h2 h3 h4 h5
  · subst h1; simp [Unescape]
  · subst h2; simp [Unescape]
  · subst h3; simp [Unescape]
  · subst h4; simp [Unescape]
  · subst h5; simp [Unescape]
  · simpa using Unescape_other c r h1

/-- C4: `EscapeXML` is the character-by-character substitution: the result is
the concatenation, in order, of `substitute c` for the characters `c` of the
input; the empty string is escaped to itself and escaping distributes over
concatenation. -/
theorem EscapeXML_is_substitution :
    (∀ s : Str, EscapeXML s = s.flatMap substitute) ∧
    EscapeXML [] = [] ∧
    (∀ a b : Str, EscapeXML (a ++ b) = EscapeXML a ++ EscapeXML b) :=
  ⟨EscapeXML_eq_flatMap, rfl, EscapeXML_append⟩

/-- C5: unescaping the escaped form of any string gives the string back. -/
theorem Unescape_EscapeXML (s : Str) : Unescape (EscapeXML s) = s := by
  induction s with
  | nil => simp [EscapeXML, Unescape]
  | cons c s ih => rw [EscapeXML_cons, Unescape_substitute, ih]

/-! ### Basic facts about the operations -/

theorem appendAttributes_eq (attrs : List (Str × Str)) :
    ∀ output : Str, appendAttributes output attrs = output ++ attributesText attrs := by
  induction attrs with
  | nil => intro output; simp [appendAttributes, attributesText]
  | cons a attrs ih =>
    intro output
    have h := ih (output ++ (" ".toList ++ a.1 ++ "=\"".toList ++ EscapeXML a.2 ++ "\"".toList))
    simp only [appendAttributes, List.foldl_cons] at h ⊢
    rw [h]
    simp [attributesText, List.flatMap_cons, List.append_assoc]

theorem sinkString_append (s : SImplementation) (d : Str) (ok : Bool) :
    sinkString { s with dsink := s.dsink ++ [(d, ok)] }
      = sinkString s ++ (if ok then d else []) := by
  cases ok <;> simp [sinkString, List.filter_append, List.flatMap_append]

theorem FlushPending_entities (sink : SinkBehaviour) (s : SImplementation) :
    (FlushPending sink s).2.pendingStack.map (fun pe => pe.entity)
      = s.pendingStack.map (fun pe => pe.entity) := by
  rcases s with ⟨log, il, _ | ⟨⟨ent, fl, hc, ht⟩, rest⟩⟩
  · rfl
  · cases fl
    · cases h : sink log (openTagText ent) <;> simp [FlushPending, WriteRaw, h]
    · rfl

theorem markElementChild_entities (s : SImplementation) :
    (markElementChild s).pendingStack.map (fun pe => pe.entity)
      = s.pendingStack.map (fun pe => pe.entity) := by
  unfold markElementChild
  split <;> simp_all

theorem markTextChild_entities (s : SImplementation) :
    (markTextChild s).pendingStack.map (fun pe => pe.entity)
      = s.pendingStack.map (fun pe => pe.entity) := by
  unfold markTextChild
  split <;> simp_all

theorem WriteRaw_pendingStack (sink : SinkBehaviour) (s : SImplementation) (d : Str) :
    (WriteRaw sink s d).2.pendingStack = s.pendingStack := rfl

theorem WriteRaw_acceptAll (s : SImplementation) (d : Str) :
    (WriteRaw acceptAll s d).1 = true := rfl

theorem FlushPending_acceptAll (s : SImplementation) : (FlushPending acceptAll s).1 = true := by
  unfold FlushPending
  split
  · split_ifs <;> simp_all [WriteRaw, acceptAll]
  · rfl

theorem WriteCompleteElement_entities (sink : SinkBehaviour) (s : SImplementation) (e : SXMLEntity) :
    (WriteCompleteElement sink s e).2.pendingStack.map (fun pe => pe.entity)
      = s.pendingStack.map (fun pe => pe.entity) := by
  unfold WriteCompleteElement
  simp only []
  split_ifs
  · exact FlushPending_entities sink s
  · rw [WriteRaw_pendingStack, markElementChild_entities, FlushPending_entities]
  · rw [WriteRaw_pendingStack, markElementChild_entities, FlushPending_entities]

theorem WriteCharData_entities (sink : SinkBehaviour) (s : SImplementation) (e : SXMLEntity) :
    (WriteCharData sink s e).2.pendingStack.map (fun pe => pe.entity)
      = s.pendingStack.map (fun pe => pe.entity) := by
  unfold WriteCharData
  simp only []
  split_ifs
  · exact FlushPending_entities sink s
  · rw [WriteRaw_pendingStack, markTextChild_entities, FlushPending_entities]

theorem WriteStartElement_entities (s : SImplementation) (e : SXMLEntity) :
    (WriteStartElement acceptAll s e).1 = true ∧
    (WriteStartElement acceptAll s e).2.pendingStack.map (fun pe => pe.entity)
      = e :: s.pendingStack.map (fun pe => pe.entity) := by
  unfold WriteStartElement
  simp [FlushPending_acceptAll, markElementChild_entities, FlushPending_entities]

theorem WriteEndElement_acceptAll (s : SImplementation) (e : SXMLEntity)
    (pe : PendingElement) (rest : List PendingElement) (h : s.pendingStack = pe :: rest) :
    (WriteEndElement acceptAll s e).1 = true ∧
      (WriteEndElement acceptAll s e).2.pendingStack = rest := by
  unfold WriteEndElement
  rw [h]
  simp only []
  split_ifs <;> simp_all [WriteRaw, acceptAll]


theorem endCalls_acceptAll (e : SXMLEntity) (he : e.DType = EType.EndElement) :
    ∀ (n : Nat) (s : SImplementation),
      (writeAll acceptAll s (List.replicate n e)).1
        = List.replicate (min n s.pendingStack.length) true
            ++ List.replicate (n - s.pendingStack.length) false := by
  intro n
  induction n with
  | zero => intro s; simp [writeAll]
  | succ n ih =>
    intro s
    simp only [List.replicate_succ, writeAll, WriteEntity, he]
    cases hs : s.pendingStack with
    | nil =>
      have h0 : WriteEndElement acceptAll s e = (false, s) := by
        unfold WriteEndElement; rw [hs]
      rw [h0, ih s, hs]
      simp [List.replicate_succ]
    | cons pe rest =>
      obtain ⟨h1, h2⟩ := WriteEndElement_acceptAll s e pe rest hs
      rw [h1, ih, h2]
      simp [List.replicate_succ, Nat.succ_min_succ]

/-! ### Scenarios -/

/-- C1: on a fresh writer with an accepting sink, `StartElement(name, attrs)`,
`CharData(text)`, `EndElement` all succeed, `Flush` succeeds, and the sink then
holds the opening tag with its attributes in order, the escaped text and the
closing tag, with nothing else between or around them. -/
theorem start_text_end_output (name text endName : Str)
    (attrs textAttrs endAttrs : List (Str × Str)) :
    (writeAll acceptAll fresh
        [⟨EType.StartElement, name, attrs⟩, ⟨EType.CharData, text, textAttrs⟩,
          ⟨EType.EndElement, endName, endAttrs⟩]).1 = [true, true, true] ∧
    ∃ s', Flush acceptAll (writeAll acceptAll fresh
        [⟨EType.StartElement, name, attrs⟩, ⟨EType.CharData, text, textAttrs⟩,
          ⟨EType.EndElement, endName, endAttrs⟩]).2 = some (true, s') ∧
      sinkString s' =
        "<".toList ++ name ++ attributesText attrs ++ ">".toList ++ EscapeXML text ++
          "</".toList ++ name ++ ">".toList := by
  simp [writeAll, WriteEntity, WriteStartElement, WriteCharData, WriteEndElement, FlushPending,
    markElementChild, markTextChild, WriteRaw, acceptAll, fresh, Flush, FlushLoop, openTagText,
    appendAttributes_eq, sinkString, ShouldIndent]

/-- C2: on a fresh writer with an accepting sink, `StartElement(name, attrs)`
followed at once by `EndElement` and `Flush` succeeds and leaves in the sink the
opening tag (attributes in order, values escaped and double-quoted, names as
given) followed by the closing tag; the self-closing form is not what is
written. -/
theorem start_end_output (name endName : Str) (attrs endAttrs : List (Str × Str)) :
    (writeAll acceptAll fresh
        [⟨EType.StartElement, name, attrs⟩, ⟨EType.EndElement, endName, endAttrs⟩]).1
      = [true, true] ∧
    ∃ s', Flush acceptAll (writeAll acceptAll fresh
        [⟨EType.StartElement, name, attrs⟩, ⟨EType.EndElement, endName, endAttrs⟩]).2
        = some (true, s') ∧
      sinkString s' =
        "<".toList ++ name ++ attributesText attrs ++ ">".toList ++ "</".toList ++ name ++
          ">".toList ∧
      sinkString s' ≠ "<".toList ++ name ++ attributesText attrs ++ "/>".toList := by
  simp [writeAll, WriteEntity, WriteStartElement, WriteCharData, WriteEndElement, FlushPending,
    markElementChild, markTextChild, WriteRaw, acceptAll, fresh, Flush, FlushLoop, openTagText,
    appendAttributes_eq, sinkString, ShouldIndent]

/-! ### Contract of single operations -/

/-- C7: `EndElement` on a writer whose stack is empty returns failure and leaves
the whole state as it was: no call is made on the sink, and the stack and
`IndentLevel` are unchanged. -/
theorem endElement_on_empty_stack (sink : SinkBehaviour) (s : SImplementation)
    (e : SXMLEntity) (hs : s.pendingStack = []) (he : e.DType = EType.EndElement) :
    WriteEntity sink s e = (false, s) := by
  unfold WriteEntity WriteEndElement
  rw [he, hs]

theorem endElement_on_empty_stack_witness :
    WriteEntity acceptAll fresh ⟨EType.EndElement, "root".toList, []⟩ = (false, fresh) :=
  endElement_on_empty_stack acceptAll fresh ⟨EType.EndElement, "root".toList, []⟩ rfl rfl

/-- C8: a `CompleteElement` event leaves the number of frames of the stack, and
the name and attributes of every frame, as they were, whatever the sink does;
hence any number of `EndElement` calls made next (to an accepting sink) succeed
and fail exactly as they would have without the `CompleteElement` call. -/
theorem completeElement_keeps_frames (sink : SinkBehaviour) (s : SImplementation)
    (e : SXMLEntity) (he : e.DType = EType.CompleteElement) :
    (WriteEntity sink s e).2.pendingStack.length = s.pendingStack.length ∧
    (WriteEntity sink s e).2.pendingStack.map (fun pe => pe.entity)
      = s.pendingStack.map (fun pe => pe.entity) ∧
    ∀ (n : Nat) (e' : SXMLEntity), e'.DType = EType.EndElement →
      (writeAll acceptAll (WriteEntity sink s e).2 (List.replicate n e')).1
        = (writeAll acceptAll s (List.replicate n e')).1 := by
  have hmap : (WriteEntity sink s e).2.pendingStack.map (fun pe => pe.entity)
      = s.pendingStack.map (fun pe => pe.entity) := by
    unfold WriteEntity
    rw [he]
    exact WriteCompleteElement_entities sink s e
  have hlen : (WriteEntity sink s e).2.pendingStack.length = s.pendingStack.length := by
    simpa using congrArg List.length hmap
  refine ⟨hlen, hmap, ?_⟩
  intro n e' he'
  rw [endCalls_acceptAll e' he', endCalls_acceptAll e' he', hlen]

theorem completeElement_keeps_frames_witness :
    (WriteEntity acceptAll (WriteEntity acceptAll fresh ⟨EType.StartElement, "a".toList, []⟩).2
        ⟨EType.CompleteElement, "b".toList, []⟩).2.pendingStack.length = 1 :=
  (completeElement_keeps_frames acceptAll
    (WriteEntity acceptAll fresh ⟨EType.StartElement, "a".toList, []⟩).2
    ⟨EType.CompleteElement, "b".toList, []⟩ rfl).1

/-! ### Balanced sequences -/

theorem WriteEntity_acceptAll_length (s : SImplementation) (e : SXMLEntity)
    (h : e.DType = EType.EndElement → s.pendingStack ≠ []) :
    (WriteEntity acceptAll s e).1 = true ∧
      (WriteEntity acceptAll s e).2.pendingStack.length + countEnd [e]
        = s.pendingStack.length + countStart [e] := by
  rcases e with ⟨t, n, a⟩
  cases t
  · have h1 := WriteStartElement_entities s ⟨EType.StartElement, n, a⟩
    have h2 := congrArg List.length h1.2
    simp at h2
    simp [WriteEntity, countEnd, countStart, h1.1, h2]
  · cases hs : s.pendingStack with
    | nil => exact absurd hs (h rfl)
    | cons pe rest =>
      obtain ⟨h1, h2⟩ := WriteEndElement_acceptAll s ⟨EType.EndElement, n, a⟩ pe rest hs
      simp [WriteEntity, countEnd, countStart, h1, h2]
  · have h2 := congrArg List.length (WriteCharData_entities acceptAll s ⟨EType.CharData, n, a⟩)
    simp at h2
    have h1 : (WriteCharData acceptAll s ⟨EType.CharData, n, a⟩).1 = true := by
      simp [WriteCharData, FlushPending_acceptAll, WriteRaw, acceptAll]
    simp [WriteEntity, countEnd, countStart, h1, h2]
  · have h2 := congrArg List.length
      (WriteCompleteElement_entities acceptAll s ⟨EType.CompleteElement, n, a⟩)
    simp at h2
    have h1 : (WriteCompleteElement acceptAll s ⟨EType.CompleteElement, n, a⟩).1 = true := by
      simp [WriteCompleteElement, FlushPending_acceptAll, WriteRaw, acceptAll]
    simp [WriteEntity, countEnd, countStart, h1, h2]

theorem countStart_cons (e : SXMLEntity) (es : List SXMLEntity) :
    countStart (e :: es) = countStart [e] + countStart es := by
  simp [countStart, List.countP_cons]; omega

theorem countEnd_cons (e : SXMLEntity) (es : List SXMLEntity) :
    countEnd (e :: es) = countEnd [e] + countEnd es := by
  simp [countEnd, List.countP_cons]; omega

theorem writeAll_acceptAll_counts (evs : List SXMLEntity) :
    ∀ s : SImplementation,
      (∀ k, k ≤ evs.length →
        countEnd (evs.take k) ≤ s.pendingStack.length + countStart (evs.take k)) →
      (∀ ok ∈ (writeAll acceptAll s evs).1, ok = true) ∧
        (writeAll acceptAll s evs).2.pendingStack.length + countEnd evs
          = s.pendingStack.length + countStart evs := by
  induction evs with
  | nil => intro s _; simp [writeAll, countEnd, countStart]
  | cons e es ih =>
    intro s h
    have hne : e.DType = EType.EndElement → s.pendingStack ≠ [] := by
      intro he hs
      have h1 := h 1 (by simp)
      simp [countEnd, countStart, he, hs] at h1
    obtain ⟨h1, h2⟩ := WriteEntity_acceptAll_length s e hne
    have h3 := ih (WriteEntity acceptAll s e).2 (by
      intro k hk
      have hk1 := h (k + 1) (by simpa using hk)
      rw [List.take_succ_cons, countStart_cons, countEnd_cons] at hk1
      omega)
    constructor
    · intro ok hok
      simp only [writeAll, List.mem_cons] at hok
      rcases hok with rfl | hok
      · exact h1
      · exact h3.1 ok hok
    · simp only [writeAll]
      rw [countStart_cons e es, countEnd_cons e es]
      omega

theorem FlushLoop_empty (sink : SinkBehaviour) (n : Nat) (s : SImplementation)
    (h : s.pendingStack = []) : FlushLoop sink n s = some (true, s) := by
  cases n <;> simp [FlushLoop, h]

/-- C6: every call of a balanced event sequence written to a fresh writer with
an accepting sink returns success, and the `Flush` made afterwards returns
success and leaves the stack empty. -/
theorem balanced_sequence_succeeds (evs : List SXMLEntity) (h : Balanced evs) :
    (∀ ok ∈ (writeAll acceptAll fresh evs).1, ok = true) ∧
    ∃ s', Flush acceptAll (writeAll acceptAll fresh evs).2 = some (true, s') ∧
      s'.pendingStack = [] := by
  obtain ⟨h1, h2⟩ := writeAll_acceptAll_counts evs fresh (by
    intro k hk
    have := h.1 k hk
    omega)
  refine ⟨h1, (writeAll acceptAll fresh evs).2, ?_, ?_⟩
  all_goals
    have h0 : (writeAll acceptAll fresh evs).2.pendingStack.length = 0 := by
      have h3 := h.2
      have hf : fresh.pendingStack.length = 0 := rfl
      rw [hf] at h2
      omega
    have h0' := List.length_eq_zero.mp h0
  · exact FlushLoop_empty _ _ _ h0'
  · exact h0'

theorem balanced_sequence_succeeds_witness :
    Balanced [⟨EType.StartElement, "a".toList, []⟩, ⟨EType.CompleteElement, "b".toList, []⟩,
        ⟨EType.CharData, "x".toList, []⟩, ⟨EType.EndElement, [], []⟩] ∧
    (∀ ok ∈ (writeAll acceptAll fresh
      [⟨EType.StartElement, "a".toList, []⟩, ⟨EType.CompleteElement, "b".toList, []⟩,
        ⟨EType.CharData, "x".toList, []⟩, ⟨EType.EndElement, [], []⟩]).1, ok = true) :=
  ⟨by decide, (balanced_sequence_succeeds _ (by decide)).1⟩


/-! ### Invariant of the reachable states -/

theorem incr_mod (c : Nat) : (c % SIZE_RANGE + 1) % SIZE_RANGE = (c + 1) % SIZE_RANGE := by
  simp only [SIZE_RANGE]; omega

theorem decr_mod (c : Nat) :
    ((c + 1) % SIZE_RANGE + SIZE_RANGE - 1) % SIZE_RANGE = c % SIZE_RANGE := by
  simp only [SIZE_RANGE]; omega

theorem incr_decr_mod (c : Nat) :
    ((c % SIZE_RANGE + 1) % SIZE_RANGE + SIZE_RANGE - 1) % SIZE_RANGE = c % SIZE_RANGE := by
  simp only [SIZE_RANGE]; omega

theorem Inv_fresh : Inv fresh := by
  simp [Inv, fresh]

theorem Inv_WriteStartElement (sink : SinkBehaviour) (s : SImplementation) (e : SXMLEntity)
    (h : Inv s) : Inv (WriteStartElement sink s e).2 := by
  rcases s with ⟨log, il, _ | ⟨⟨ent, fl, hc, ht⟩, rest⟩⟩
  · simpa [Inv, WriteStartElement, FlushPending, markElementChild] using h
  · obtain ⟨h1, h2, h3⟩ := h
    cases fl
    · cases hw : sink log (openTagText ent)
      · simp [Inv, WriteStartElement, FlushPending, markElementChild, WriteRaw, hw] 
        simp [Inv] at h1 h2 h3
        exact ⟨h1, h2, h3⟩
      · simp [Inv, WriteStartElement, FlushPending, markElementChild, WriteRaw, hw] 
        simp [Inv] at h1 h2 h3
        refine ⟨?_, h2, h3.2⟩
        rw [h1, incr_mod]
    · simp [Inv, WriteStartElement, FlushPending, markElementChild, WriteRaw] 
      simp [Inv] at h1 h2 h3
      exact ⟨h1, h2, h3.2⟩


theorem Inv_WriteCharData (sink : SinkBehaviour) (s : SImplementation) (e : SXMLEntity)
    (h : Inv s) : Inv (WriteCharData sink s e).2 := by
  rcases s with ⟨log, il, _ | ⟨⟨ent, fl, hc, ht⟩, rest⟩⟩
  · simpa [Inv, WriteCharData, FlushPending, markTextChild, WriteRaw] using h
  · obtain ⟨h1, h2, h3⟩ := h
    cases fl
    · cases hw : sink log (openTagText ent)
      · simp [Inv, WriteCharData, FlushPending, markTextChild, WriteRaw, hw]
        simp [Inv] at h1 h2 h3
        exact ⟨h1, h2, h3⟩
      · simp [Inv, WriteCharData, FlushPending, markTextChild, WriteRaw, hw]
        simp [Inv] at h1 h2 h3
        refine ⟨?_, h2, h3.2⟩
        rw [h1, incr_mod]
    · simp [Inv, WriteCharData, FlushPending, markTextChild, WriteRaw]
      simp [Inv] at h1 h2 h3
      exact ⟨h1, h2, h3.2⟩

theorem Inv_WriteCompleteElement (sink : SinkBehaviour) (s : SImplementation) (e : SXMLEntity)
    (h : Inv s) : Inv (WriteCompleteElement sink s e).2 := by
  rcases s with ⟨log, il, _ | ⟨⟨ent, fl, hc, ht⟩, rest⟩⟩
  · simpa [Inv, WriteCompleteElement, FlushPending, markElementChild, WriteRaw] using h
  · obtain ⟨h1, h2, h3⟩ := h
    cases fl
    · cases hw : sink log (openTagText ent)
      · simp [Inv, WriteCompleteElement, FlushPending, markElementChild, WriteRaw, hw]
        simp [Inv] at h1 h2 h3
        exact ⟨h1, h2, h3⟩
      · simp [Inv, WriteCompleteElement, FlushPending, markElementChild, WriteRaw, hw]
        simp [Inv] at h1 h2 h3
        refine ⟨?_, h2, h3.2⟩
        rw [h1, incr_mod]
    · simp [Inv, WriteCompleteElement, FlushPending, markElementChild, WriteRaw]
      simp [Inv] at h1 h2 h3
      exact ⟨h1, h2, h3.2⟩

theorem tail_flushed_of_all (rest : List PendingElement)
    (h : ∀ pe ∈ rest, pe.flushed = true) : ∀ pe ∈ rest.tail, pe.flushed = true :=
  fun pe hpe => h pe (List.mem_of_mem_tail hpe)

theorem Inv_WriteEndElement (sink : SinkBehaviour) (s : SImplementation) (e : SXMLEntity)
    (h : Inv s) : Inv (WriteEndElement sink s e).2 := by
  rcases s with ⟨log, il, _ | ⟨⟨ent, fl, hc, ht⟩, rest⟩⟩
  · simpa [WriteEndElement] using h
  · obtain ⟨h1, h2, h3⟩ := h
    simp [Inv] at h1 h2 h3
    have h2' := tail_flushed_of_all rest h2
    cases fl
    · simp only [WriteEndElement, WriteRaw, Bool.not_false, if_true]
      simp only [List.countP_cons, Bool.false_eq_true, if_false, Nat.add_zero] at h1
      split_ifs
      all_goals
        refine ⟨?_, h2', h3.2⟩
        simp only [h1, incr_decr_mod]
    · simp only [WriteEndElement, WriteRaw, Bool.not_true]
      refine ⟨?_, h2', h3.2⟩
      simp at h1 ⊢
      rw [h1, decr_mod]

theorem Inv_WriteEntity (sink : SinkBehaviour) (s : SImplementation) (e : SXMLEntity)
    (h : Inv s) : Inv (WriteEntity sink s e).2 := by
  unfold WriteEntity
  split
  · exact Inv_WriteStartElement sink s e h
  · exact Inv_WriteEndElement sink s e h
  · exact Inv_WriteCharData sink s e h
  · exact Inv_WriteCompleteElement sink s e h

theorem Inv_FlushLoop (sink : SinkBehaviour) (n : Nat) :
    ∀ (s : SImplementation) (r : Bool × SImplementation),
      Inv s → FlushLoop sink n s = some r → Inv r.2 := by
  induction n with
  | zero =>
    intro s r h hr
    simp only [FlushLoop] at hr
    split_ifs at hr
    cases hr
    exact h
  | succ n ih =>
    intro s r h hr
    simp only [FlushLoop] at hr
    split_ifs at hr with h1 h2
    · cases hr; exact h
    · cases hr; exact Inv_WriteEndElement sink s _ h
    · exact ih _ r (Inv_WriteEndElement sink s _ h) hr

theorem Inv_of_Reachable (sink : SinkBehaviour) (s : SImplementation)
    (h : Reachable sink s) : Inv s := by
  induction h with
  | fresh => exact Inv_fresh
  | write s e _ ih => exact Inv_WriteEntity sink s e ih
  | flush s r _ hr ih => exact Inv_FlushLoop sink _ s r ih hr


theorem Reachable_writeAll (sink : SinkBehaviour) (evs : List SXMLEntity) :
    ∀ s : SImplementation, Reachable sink s → Reachable sink (writeAll sink s evs).2 := by
  induction evs with
  | nil => intro s h; exact h
  | cons e es ih => intro s h; exact ih _ (Reachable.write s e h)

/-- C10: in a reachable state whose top frame has a text child and no element
child, `EndElement` makes exactly one call on the sink, with the buffer
`</name>` of that frame and nothing before it, returns the sink's answer
(success for an accepting sink) and pops the frame. -/
theorem endElement_textOnly_inline (sink : SinkBehaviour) (s : SImplementation)
    (hr : Reachable sink s) (pe : PendingElement) (rest : List PendingElement)
    (hs : s.pendingStack = pe :: rest)
    (ht : pe.hasTextChild = true) (hc : pe.hasElementChild = false)
    (e : SXMLEntity) (he : e.DType = EType.EndElement) :
    (WriteEntity sink s e).2.dsink
        = s.dsink ++ [("</".toList ++ pe.entity.DNameData ++ ">".toList,
            sink s.dsink ("</".toList ++ pe.entity.DNameData ++ ">".toList))] ∧
      (WriteEntity sink s e).1 = sink s.dsink ("</".toList ++ pe.entity.DNameData ++ ">".toList) ∧
      (WriteEntity sink s e).2.pendingStack = rest := by
  obtain ⟨_, _, h3⟩ := Inv_of_Reachable sink s hr
  have hf : pe.flushed = true := by
    have := h3 pe (by rw [hs]; exact List.mem_cons_self _ _)
    rw [this, ht]; simp
  simp [WriteEntity, he, WriteEndElement, hs, hf, hc, WriteRaw]

theorem closeTag_under_parent (sink : SinkBehaviour) (s : SImplementation)
    (hr : Reachable sink s) (pe parent : PendingElement) (rest : List PendingElement)
    (hs : s.pendingStack = pe :: parent :: rest)
    (hc : pe.hasElementChild = true)
    (hp : parent.entity.DNameData ≠ "osm".toList)
    (hlen : s.pendingStack.length < SIZE_RANGE)
    (e : SXMLEntity) (he : e.DType = EType.EndElement) :
    (WriteEntity sink s e).2.dsink
        = s.dsink ++ [("\n".toList ++ List.replicate (rest.length + 1) '\t'
              ++ ("</".toList ++ pe.entity.DNameData ++ ">".toList),
            sink s.dsink ("\n".toList ++ List.replicate (rest.length + 1) '\t'
              ++ ("</".toList ++ pe.entity.DNameData ++ ">".toList)))] ∧
      (WriteEntity sink s e).1
        = sink s.dsink ("\n".toList ++ List.replicate (rest.length + 1) '\t'
              ++ ("</".toList ++ pe.entity.DNameData ++ ">".toList)) ∧
      (WriteEntity sink s e).2.pendingStack = parent :: rest := by
  obtain ⟨h1, h2, h3⟩ := Inv_of_Reachable sink s hr
  have hf : pe.flushed = true := by
    have := h3 pe (by rw [hs]; exact List.mem_cons_self _ _)
    rw [this, hc]; simp
  rw [hs] at h1 h2 hlen
  simp only [List.tail_cons] at h2
  have hcount : List.countP (fun pe => pe.flushed) (parent :: rest) = rest.length + 1 := by
    rw [List.countP_eq_length.mpr]
    · simp
    · intro x hx; exact h2 x hx
  rw [List.countP_cons, hcount] at h1
  simp only [hf, if_true] at h1
  simp only [List.length_cons] at hlen
  have hil : s.IndentLevel = rest.length + 2 := by
    rw [h1]; exact Nat.mod_eq_of_lt hlen
  have hdec : (s.IndentLevel + SIZE_RANGE - 1) % SIZE_RANGE = rest.length + 1 := by
    rw [hil]
    have : rest.length + 2 + SIZE_RANGE - 1 = (rest.length + 1) + SIZE_RANGE := by omega
    rw [this, Nat.add_mod_right]
    exact Nat.mod_eq_of_lt (by omega)
  have hp' : ¬ parent.entity.DNameData = ['o', 's', 'm'] := hp
  simp [WriteEntity, he, WriteEndElement, hs, hf, hc, WriteRaw, ShouldIndent, hp', hdec,
    indentText]

theorem closeTag_of_root (sink : SinkBehaviour) (s : SImplementation)
    (hr : Reachable sink s) (pe : PendingElement) (hs : s.pendingStack = [pe])
    (hc : pe.hasElementChild = true) (e : SXMLEntity) (he : e.DType = EType.EndElement) :
    (WriteEntity sink s e).2.dsink
        = s.dsink ++ [("</".toList ++ pe.entity.DNameData ++ ">".toList,
            sink s.dsink ("</".toList ++ pe.entity.DNameData ++ ">".toList))] ∧
      (WriteEntity sink s e).1 = sink s.dsink ("</".toList ++ pe.entity.DNameData ++ ">".toList) ∧
      (WriteEntity sink s e).2.pendingStack = [] := by
  obtain ⟨h1, _, h3⟩ := Inv_of_Reachable sink s hr
  have hf : pe.flushed = true := by
    have := h3 pe (by rw [hs]; exact List.mem_cons_self _ _)
    rw [this, hc]; simp
  rw [hs] at h1
  simp only [List.countP_cons, List.countP_nil, hf, if_true, Nat.zero_add] at h1
  have hdec : (s.IndentLevel + SIZE_RANGE - 1) % SIZE_RANGE = 0 := by
    rw [h1]; decide
  simp [WriteEntity, he, WriteEndElement, hs, hf, hc, WriteRaw, ShouldIndent, hdec]

/-- C9 (amended): in a reachable state whose top frame has element children
only, for any sink behaviour.  If the frame is the root (no frame below it),
`EndElement` makes exactly one call on the sink, with the closing tag `</name>`
and nothing before it.  If the frame lies on a parent frame whose name is not
`osm` (the stack holding fewer than `2 ^ 64` frames), `EndElement` makes exactly
one call on the sink, with a newline, one tab per frame left on the stack, and
the closing tag `</name>`. -/
theorem endElement_elementChildren_indented (sink : SinkBehaviour) (s : SImplementation)
    (hr : Reachable sink s) (pe : PendingElement) (below : List PendingElement)
    (hs : s.pendingStack = pe :: below)
    (hc : pe.hasElementChild = true) (_ht : pe.hasTextChild = false)
    (e : SXMLEntity) (he : e.DType = EType.EndElement) :
    (below = [] →
      (WriteEntity sink s e).2.dsink
          = s.dsink ++ [("</".toList ++ pe.entity.DNameData ++ ">".toList,
              sink s.dsink ("</".toList ++ pe.entity.DNameData ++ ">".toList))] ∧
        (WriteEntity sink s e).1
          = sink s.dsink ("</".toList ++ pe.entity.DNameData ++ ">".toList) ∧
        (WriteEntity sink s e).2.pendingStack = []) ∧
    (∀ (parent : PendingElement) (rest : List PendingElement), below = parent :: rest →
      parent.entity.DNameData ≠ "osm".toList → s.pendingStack.length < SIZE_RANGE →
      (WriteEntity sink s e).2.dsink
          = s.dsink ++ [("\n".toList ++ List.replicate (rest.length + 1) '\t'
                ++ ("</".toList ++ pe.entity.DNameData ++ ">".toList),
              sink s.dsink ("\n".toList ++ List.replicate (rest.length + 1) '\t'
                ++ ("</".toList ++ pe.entity.DNameData ++ ">".toList)))] ∧
        (WriteEntity sink s e).1
          = sink s.dsink ("\n".toList ++ List.replicate (rest.length + 1) '\t'
                ++ ("</".toList ++ pe.entity.DNameData ++ ">".toList)) ∧
        (WriteEntity sink s e).2.pendingStack = parent :: rest) := by
  constructor
  · intro hb
    exact closeTag_of_root sink s hr pe (by rw [hs, hb]) hc e he
  · intro parent rest hb hp hlen
    exact closeTag_under_parent sink s hr pe parent rest (by rw [hs, hb]) hc hp hlen e he

theorem endElement_textOnly_inline_witness :
    (WriteEntity acceptAll
        (writeAll acceptAll fresh
          [⟨EType.StartElement, "a".toList, []⟩, ⟨EType.CharData, "x".toList, []⟩]).2
        ⟨EType.EndElement, "a".toList, []⟩).2.dsink
      = [("<a>".toList, true), ("x".toList, true), ("</a>".toList, true)] :=
  (endElement_textOnly_inline acceptAll
    (writeAll acceptAll fresh
      [⟨EType.StartElement, "a".toList, []⟩, ⟨EType.CharData, "x".toList, []⟩]).2
    (Reachable_writeAll acceptAll _ fresh Reachable.fresh)
    ⟨⟨EType.StartElement, "a".toList, []⟩, true, false, true⟩ [] (by decide) rfl rfl
    ⟨EType.EndElement, "a".toList, []⟩ rfl).1

theorem endElement_elementChildren_indented_witness :
    (WriteEntity acceptAll
        (writeAll acceptAll fresh
          [⟨EType.StartElement, "a".toList, []⟩, ⟨EType.StartElement, "b".toList, []⟩,
            ⟨EType.CompleteElement, "c".toList, []⟩]).2
        ⟨EType.EndElement, "b".toList, []⟩).2.dsink
      = [("<a>".toList, true), ("<b>".toList, true), ("\n\t\t<c/>".toList, true),
          ("\n\t</b>".toList, true)] :=
  ((endElement_elementChildren_indented acceptAll
    (writeAll acceptAll fresh
      [⟨EType.StartElement, "a".toList, []⟩, ⟨EType.StartElement, "b".toList, []⟩,
        ⟨EType.CompleteElement, "c".toList, []⟩]).2
    (Reachable_writeAll acceptAll _ fresh Reachable.fresh)
    ⟨⟨EType.StartElement, "b".toList, []⟩, true, true, false⟩
    [⟨⟨EType.StartElement, "a".toList, []⟩, true, true, false⟩] (by decide) rfl rfl
    ⟨EType.EndElement, "b".toList, []⟩ rfl).2
    ⟨⟨EType.StartElement, "a".toList, []⟩, true, true, false⟩ [] rfl
    (by decide) (by decide)).1

/-- C9 (counterexample): after `StartElement(root)`, `StartElement(child)`,
`CharData`, `EndElement` the top frame `root` has an element child, no text and
no parent, and `EndElement` writes `</root>` with no newline before it. -/
theorem root_close_not_indented :
    (writeAll acceptAll fresh
        [⟨EType.StartElement, "root".toList, [("attr".toList, "value".toList)]⟩,
          ⟨EType.StartElement, "child".toList, []⟩, ⟨EType.CharData, "Text".toList, []⟩,
          ⟨EType.EndElement, "child".toList, []⟩]).2.pendingStack
      = [⟨⟨EType.StartElement, "root".toList, [("attr".toList, "value".toList)]⟩,
          true, true, false⟩] ∧
    sinkCalls (WriteEntity acceptAll
        (writeAll acceptAll fresh
          [⟨EType.StartElement, "root".toList, [("attr".toList, "value".toList)]⟩,
            ⟨EType.StartElement, "child".toList, []⟩, ⟨EType.CharData, "Text".toList, []⟩,
            ⟨EType.EndElement, "child".toList, []⟩]).2
        ⟨EType.EndElement, "root".toList, []⟩).2
      = ["<root attr=\"value\">".toList, "<child>".toList, "Text".toList, "</child>".toList,
          "</root>".toList] := by
  decide

/-! ### Round trip -/

theorem writeAll_append (sink : SinkBehaviour) (a b : List SXMLEntity) :
    ∀ s : SImplementation, writeAll sink s (a ++ b)
      = ((writeAll sink s a).1 ++ (writeAll sink (writeAll sink s a).2 b).1,
          (writeAll sink (writeAll sink s a).2 b).2) := by
  induction a with
  | nil => intro s; simp [writeAll]
  | cons e es ih => intro s; simp [writeAll, ih]

theorem afterNode_cons (log : List (Str × Bool)) (il : Nat) (f : PendingElement)
    (rest : List PendingElement) (c : Node) :
    afterNode ⟨log, il, f :: rest⟩ c =
      ⟨log ++ (if f.flushed then [] else [(openTagText f.entity, true)]) ++ writes c,
        if f.flushed then il else (il + 1) % SIZE_RANGE,
        { f with
          flushed := true
          hasElementChild := f.hasElementChild || !c.isText
          hasTextChild := f.hasTextChild || c.isText } :: rest⟩ := by
  rcases f with ⟨ent, fl, hc, ht⟩
  cases fl <;> cases c <;>
    simp [afterNode, FlushPending, WriteRaw, acceptAll, markChild, Node.isText, markTextChild,
      markElementChild]

theorem foldl_afterNode_cons (cs : List Node) :
    ∀ (log : List (Str × Bool)) (il : Nat) (f : PendingElement) (rest : List PendingElement),
      cs.foldl afterNode ⟨log, il, f :: rest⟩ =
        ⟨log ++ (if f.flushed || cs.isEmpty then [] else [(openTagText f.entity, true)])
            ++ writesList cs,
          if f.flushed || cs.isEmpty then il else (il + 1) % SIZE_RANGE,
          { f with
            flushed := f.flushed || !cs.isEmpty
            hasElementChild := f.hasElementChild || cs.any (fun c => !c.isText)
            hasTextChild := f.hasTextChild || cs.any Node.isText } :: rest⟩ := by
  induction cs with
  | nil => intro log il f rest; simp [writesList]
  | cons c cs ih =>
    intro log il f rest
    rw [List.foldl_cons, afterNode_cons, ih]
    rcases f with ⟨ent, fl, hc, ht⟩
    cases fl <;> simp [writesList, Bool.or_assoc]


theorem incr_decr_lt (x : Nat) (h : x < SIZE_RANGE) :
    ((x + 1) % SIZE_RANGE + SIZE_RANGE - 1) % SIZE_RANGE = x := by
  simp only [SIZE_RANGE] at h ⊢; omega

theorem FlushPending_IndentLevel_lt (sink : SinkBehaviour) (s : SImplementation)
    (h : s.IndentLevel < SIZE_RANGE) : (FlushPending sink s).2.IndentLevel < SIZE_RANGE := by
  rcases s with ⟨log, il, _ | ⟨⟨ent, fl, hc, ht⟩, rest⟩⟩
  · exact h
  · cases fl
    · cases hw : sink log (openTagText ent)
      · simpa [FlushPending, WriteRaw, hw] using h
      · simp only [FlushPending, WriteRaw, hw]
        exact Nat.mod_lt _ (by decide)
    · exact h

theorem markElementChild_fields (s : SImplementation) :
    (markElementChild s).dsink = s.dsink ∧ (markElementChild s).IndentLevel = s.IndentLevel := by
  unfold markElementChild; split <;> simp

theorem markTextChild_fields (s : SImplementation) :
    (markTextChild s).dsink = s.dsink ∧ (markTextChild s).IndentLevel = s.IndentLevel := by
  unfold markTextChild; split <;> simp

theorem markChild_fields (n : Node) (s : SImplementation) :
    (markChild n s).dsink = s.dsink ∧ (markChild n s).IndentLevel = s.IndentLevel := by
  unfold markChild
  split
  · exact markTextChild_fields s
  · exact markElementChild_fields s

theorem afterNode_IndentLevel_lt (s : SImplementation) (n : Node)
    (h : s.IndentLevel < SIZE_RANGE) : (afterNode s n).IndentLevel < SIZE_RANGE := by
  have h1 := FlushPending_IndentLevel_lt acceptAll s h
  have h2 := (markChild_fields n (FlushPending acceptAll s).2).2
  simp only [afterNode]
  rw [h2]; exact h1

theorem ShouldIndent_of_posOK (s x : SImplementation) (h : posOK s)
    (hi : x.IndentLevel = (markElementChild (FlushPending acceptAll s).2).IndentLevel)
    (hs : x.pendingStack = (markElementChild (FlushPending acceptAll s).2).pendingStack) :
    ShouldIndent x = false := by
  rcases s with ⟨log, il, _ | ⟨⟨ent, fl, hc, ht⟩, rest⟩⟩
  · simp [posOK] at h
    simp [FlushPending, markElementChild] at hi hs
    simp [ShouldIndent, hs, hi, h]
  · simp [posOK] at h
    cases fl <;>
    · simp [FlushPending, markElementChild, WriteRaw, acceptAll] at hi hs
      simp [ShouldIndent, hs, h]

theorem posOK_afterNode (s : SImplementation) (n : Node) (h : posOK s) :
    posOK (afterNode s n) := by
  rcases s with ⟨log, il, _ | ⟨⟨ent, fl, hc, ht⟩, rest⟩⟩
  · simp [posOK] at h
    cases n <;>
      simp [posOK, afterNode, FlushPending, markChild, Node.isText, markTextChild,
        markElementChild, h]
  · simp [posOK] at h
    rw [afterNode_cons]
    simpa [posOK] using h


theorem WriteStartElement_acceptAll_eq (s : SImplementation) (e : SXMLEntity) :
    WriteStartElement acceptAll s e =
      (true, ⟨(FlushPending acceptAll s).2.dsink,
        (markElementChild (FlushPending acceptAll s).2).IndentLevel,
        { entity := e } :: (markElementChild (FlushPending acceptAll s).2).pendingStack⟩) := by
  simp [WriteStartElement, FlushPending_acceptAll, (markElementChild_fields _).1]

theorem afterNode_element (s : SImplementation) (name : Str) (attrs : List (Str × Str))
    (cs : List Node) :
    afterNode s (.element name attrs cs) =
      ⟨(FlushPending acceptAll s).2.dsink ++ writes (.element name attrs cs),
        (markElementChild (FlushPending acceptAll s).2).IndentLevel,
        (markElementChild (FlushPending acceptAll s).2).pendingStack⟩ := by
  simp [afterNode, markChild, Node.isText]

theorem closeElement_run (log : List (Str × Bool)) (il : Nat) (stack : List PendingElement)
    (name : Str) (attrs endAttrs : List (Str × Str)) (cs : List Node) (free : Bool)
    (hil : il < SIZE_RANGE)
    (hfree : free = true → ShouldIndent ⟨[], il, stack⟩ = false)
    (hok : (free || (!cs.isEmpty && cs.all Node.isText)) = true) :
    WriteEndElement acceptAll
        (cs.foldl afterNode ⟨log, il, { entity := ⟨EType.StartElement, name, attrs⟩ } :: stack⟩)
        ⟨EType.EndElement, name, endAttrs⟩
      = (true, ⟨log ++ writes (.element name attrs cs), il, stack⟩) := by
  have hSI : ∀ l, ShouldIndent ⟨l, il, stack⟩ = ShouldIndent ⟨[], il, stack⟩ := fun l => rfl
  rw [foldl_afterNode_cons]
  cases cs with
  | nil =>
    have hf : free = true := by simpa using hok
    have h0 := hfree hf
    simp [WriteEndElement, WriteRaw, acceptAll, writes, writesList, openTagText, hSI _, h0,
      incr_decr_lt il hil]
  | cons c cs =>
    have hclose : ((c :: cs).any (fun c => !c.isText) &&
        ShouldIndent ⟨[], il, stack⟩) = false := by
      cases free with
      | true => rw [hfree rfl]; simp
      | false =>
        simp only [Bool.false_or, Bool.and_eq_true] at hok
        have hall := hok.2
        have : (c :: cs).any (fun c => !c.isText) = false := by
          rw [List.any_eq_false]
          intro x hx
          have := List.all_eq_true.mp hall x hx
          simp [this]
        rw [this]; simp
    simp only [WriteEndElement, WriteRaw, acceptAll, List.isEmpty_cons, Bool.or_false,
      Bool.not_false, Bool.false_or, Bool.not_true, Bool.false_eq_true, if_false,
      incr_decr_lt il hil, hSI _, hclose, writes, List.nil_append]
    simp [List.append_assoc]


mutual
theorem run_node : ∀ (n : Node) (free : Bool) (s : SImplementation),
    s.IndentLevel < SIZE_RANGE → (free = true → posOK s) → inlineOK free n = true →
    (∀ ok ∈ (writeAll acceptAll s (events n)).1, ok = true) ∧
      (writeAll acceptAll s (events n)).2 = afterNode s n
  | .text data, free, s, _, _, hok => by
    have h1 := FlushPending_acceptAll s
    have hne : data.isEmpty = false := by simpa [inlineOK] using hok
    simp [events, hne, writeAll, WriteEntity, WriteCharData, h1, WriteRaw, acceptAll, afterNode,
      markChild, Node.isText, writes, (markTextChild_fields _).1]
  | .element name attrs cs, free, s, hil, hpos, hok => by
    simp only [inlineOK, Bool.and_eq_true] at hok
    obtain ⟨hok1, hok2⟩ := hok
    have hil1 : (markElementChild (FlushPending acceptAll s).2).IndentLevel < SIZE_RANGE := by
      rw [(markElementChild_fields _).2]
      exact FlushPending_IndentLevel_lt acceptAll s hil
    have hrec := run_list cs (decide (name = "osm".toList))
      ⟨(FlushPending acceptAll s).2.dsink,
        (markElementChild (FlushPending acceptAll s).2).IndentLevel,
        { entity := ⟨EType.StartElement, name, attrs⟩ }
          :: (markElementChild (FlushPending acceptAll s).2).pendingStack⟩
      hil1 (by intro h; simpa [posOK] using h) hok2
    have hclose := closeElement_run (FlushPending acceptAll s).2.dsink
      (markElementChild (FlushPending acceptAll s).2).IndentLevel
      (markElementChild (FlushPending acceptAll s).2).pendingStack name attrs [] cs free hil1
      (fun hf => ShouldIndent_of_posOK s _ (hpos hf) rfl rfl) hok1
    simp only [events, writeAll, WriteEntity, WriteStartElement_acceptAll_eq]
    rw [writeAll_append]
    simp only [writeAll, WriteEntity, hrec.2, hclose, afterNode_element]
    refine ⟨?_, trivial⟩
    intro ok hok
    simp only [List.mem_cons, List.mem_append, List.mem_singleton, List.not_mem_nil,
      or_false] at hok
    rcases hok with rfl | hok | rfl
    · rfl
    · exact hrec.1 ok hok
    · rfl
theorem run_list : ∀ (cs : List Node) (free : Bool) (s : SImplementation),
    s.IndentLevel < SIZE_RANGE → (free = true → posOK s) → inlineOKList free cs = true →
    (∀ ok ∈ (writeAll acceptAll s (eventsList cs)).1, ok = true) ∧
      (writeAll acceptAll s (eventsList cs)).2 = cs.foldl afterNode s
  | [], _, s, _, _, _ => by simp [eventsList, writeAll]
  | c :: cs, free, s, hil, hpos, hok => by
    simp only [inlineOKList, Bool.and_eq_true] at hok
    have h1 := run_node c free s hil hpos hok.1
    have h2 := run_list cs free (afterNode s c) (afterNode_IndentLevel_lt s c hil)
      (fun hf => posOK_afterNode s c (hpos hf)) hok.2
    simp only [eventsList, List.foldl_cons]
    rw [writeAll_append, h1.2]
    refine ⟨?_, h2.2⟩
    intro ok hok
    simp only [List.mem_append] at hok
    rcases hok with hok | hok
    · exact h1.1 ok hok
    · exact h2.1 ok hok
end

mutual
theorem join_writes : ∀ n : Node,
    ((writes n).filter (fun c => c.2)).flatMap (fun c => c.1) = markup n
  | .text data => by simp [writes, markup]
  | .element name attrs cs => by
    have h := join_writesList cs
    simp [writes, markup, List.filter_append, List.flatMap_append, h, openTagText,
      appendAttributes_eq]
theorem join_writesList : ∀ cs : List Node,
    ((writesList cs).filter (fun c => c.2)).flatMap (fun c => c.1) = markupList cs
  | [] => by simp [writesList, markupList]
  | c :: cs => by
    have h1 := join_writes c
    have h2 := join_writesList cs
    simp [writesList, markupList, List.filter_append, List.flatMap_append, h1, h2]
end

theorem substitute_cases (c : Char) :
    (substitute c = [c] ∧ c ≠ '&' ∧ c ≠ '"' ∧ c ≠ '\'' ∧ c ≠ '<' ∧ c ≠ '>') ∨
      substitute c = "&amp;".toList ∨ substitute c = "&quot;".toList ∨
      substitute c = "&apos;".toList ∨ substitute c = "&lt;".toList ∨
      substitute c = "&gt;".toList := by
  unfold substitute
  split_ifs <;> simp_all

theorem not_mem_EscapeXML (x : Char)
    (hx : x = '<' ∨ x = '>' ∨ x = '"' ∨ x = '\'') (s : Str) : x ∉ EscapeXML s := by
  induction s with
  | nil => simp [EscapeXML]
  | cons c s ih =>
    rw [EscapeXML_cons, List.mem_append]
    rintro (h | h)
    · rcases substitute_cases c with ⟨h1, _, h3, h4, h5, h6⟩ | h1 | h1 | h1 | h1 | h1
      · rw [h1, List.mem_singleton] at h
        subst h
        rcases hx with rfl | rfl | rfl | rfl <;> simp_all
      all_goals
        rw [h1] at h
        rcases hx with rfl | rfl | rfl | rfl <;> simp at h
    · exact ih h

theorem split_after_plain (l : Str) (hl : '&' ∉ l) :
    ∀ (rest pre post : Str), l ++ rest = pre ++ '&' :: post →
      ∃ pre', pre = l ++ pre' ∧ rest = pre' ++ '&' :: post := by
  induction l with
  | nil => intro rest pre post h; exact ⟨pre, rfl, by simpa using h⟩
  | cons a l ih =>
    intro rest pre post h
    have ha : a ≠ '&' := fun e => hl (by simp [e])
    have hl' : '&' ∉ l := fun e => hl (List.mem_cons_of_mem _ e)
    cases pre with
    | nil =>
      simp only [List.cons_append, List.nil_append, List.cons.injEq] at h
      exact absurd h.1 ha
    | cons b pre =>
      simp only [List.cons_append, List.cons.injEq] at h
      obtain ⟨pre', h1, h2⟩ := ih hl' rest pre post h.2
      exact ⟨pre', by rw [h.1, h1]; rfl, h2⟩

theorem entity_split (tail rest pre post : Str) (ht : '&' ∉ tail)
    (hent : ∀ r, startsWithEntity ('&' :: (tail ++ r)) = true)
    (ih : ∀ pre post, rest = pre ++ '&' :: post → startsWithEntity ('&' :: post) = true)
    (h : '&' :: (tail ++ rest) = pre ++ '&' :: post) :
    startsWithEntity ('&' :: post) = true := by
  cases pre with
  | nil =>
    simp only [List.nil_append, List.cons.injEq, true_and] at h
    rw [← h]; exact hent rest
  | cons b pre =>
    simp only [List.cons_append, List.cons.injEq] at h
    obtain ⟨pre', _, h2⟩ := split_after_plain tail ht rest pre post h.2
    exact ih pre' post h2

theorem amp_in_EscapeXML (s : Str) :
    ∀ pre post, EscapeXML s = pre ++ '&' :: post → startsWithEntity ('&' :: post) = true := by
  induction s with
  | nil => intro pre post h; simp [EscapeXML] at h
  | cons c s ih =>
    intro pre post h
    rw [EscapeXML_cons] at h
    rcases substitute_cases c with ⟨h1, h2, _⟩ | h1 | h1 | h1 | h1 | h1
    · rw [h1] at h
      obtain ⟨pre', _, h3⟩ := split_after_plain [c] (by simpa using Ne.symm h2) _ pre post h
      exact ih pre' post h3
    · rw [h1] at h
      exact entity_split "amp;".toList _ pre post (by decide)
        (fun r => by simp [startsWithEntity, List.isPrefixOf]) ih h
    · rw [h1] at h
      exact entity_split "quot;".toList _ pre post (by decide)
        (fun r => by simp [startsWithEntity, List.isPrefixOf]) ih h
    · rw [h1] at h
      exact entity_split "apos;".toList _ pre post (by decide)
        (fun r => by simp [startsWithEntity, List.isPrefixOf]) ih h
    · rw [h1] at h
      exact entity_split "lt;".toList _ pre post (by decide)
        (fun r => by simp [startsWithEntity, List.isPrefixOf]) ih h
    · rw [h1] at h
      exact entity_split "gt;".toList _ pre post (by decide)
        (fun r => by simp [startsWithEntity, List.isPrefixOf]) ih h

/-- C20: the escaped form of any string contains none of `<`, `>`, `"` and `'`,
and wherever it contains `&` one of the five entities begins there; so the
escaped attribute value written between double quotes holds no double quote. -/
theorem EscapeXML_stays_in_context (s : Str) :
    '<' ∉ EscapeXML s ∧ '>' ∉ EscapeXML s ∧ '"' ∉ EscapeXML s ∧ '\'' ∉ EscapeXML s ∧
    (∀ pre post, EscapeXML s = pre ++ '&' :: post → startsWithEntity ('&' :: post) = true) ∧
    (∀ (k : Str) (attrs : List (Str × Str)),
      attributesText ((k, s) :: attrs)
        = " ".toList ++ k ++ "=\"".toList ++ EscapeXML s ++ "\"".toList ++ attributesText attrs) :=
  ⟨not_mem_EscapeXML _ (Or.inl rfl) s, not_mem_EscapeXML _ (Or.inr (Or.inl rfl)) s,
    not_mem_EscapeXML _ (Or.inr (Or.inr (Or.inl rfl))) s,
    not_mem_EscapeXML _ (Or.inr (Or.inr (Or.inr rfl))) s,
    amp_in_EscapeXML s,
    fun k attrs => by simp [attributesText, List.flatMap_cons]⟩

theorem EscapeXML_stays_in_context_witness :
    '"' ∉ EscapeXML "a\"&<b".toList ∧
      startsWithEntity ('&' :: "amp;&lt;b".toList) = true :=
  ⟨(EscapeXML_stays_in_context "a\"&<b".toList).2.2.1,
    (EscapeXML_stays_in_context "a\"&<b".toList).2.2.2.2.1 "a&quot;".toList "amp;&lt;b".toList
      (by decide)⟩

/-! ### Normal forms of the operations -/

theorem openTagText_eq (e : SXMLEntity) :
    openTagText e = "<".toList ++ e.DNameData ++ attributesText e.DAttributes ++ ">".toList := by
  simp [openTagText, appendAttributes_eq]

theorem indentIf_cases (b : Bool) (k : Nat) : indentIf b k = [] ∨ indentIf b k = indentText k := by
  cases b <;> simp [indentIf]

theorem WriteCompleteElement_eq (sink : SinkBehaviour) (s : SImplementation) (e : SXMLEntity) :
    WriteCompleteElement sink s e =
      if (FlushPending sink s).1 = true then
        WriteRaw sink (markElementChild (FlushPending sink s).2)
          (indentIf (ShouldIndent (markElementChild (FlushPending sink s).2))
              (markElementChild (FlushPending sink s).2).IndentLevel
            ++ completeTagText e)
      else (false, (FlushPending sink s).2) := by
  simp only [WriteCompleteElement, indentIf, completeTagText, appendAttributes_eq,
    List.append_assoc]
  cases (FlushPending sink s).1 <;> simp

theorem WriteEndElement_flushed (sink : SinkBehaviour) (log : List (Str × Bool)) (il : Nat)
    (pe : PendingElement) (rest : List PendingElement) (e : SXMLEntity)
    (hf : pe.flushed = true) :
    WriteEndElement sink ⟨log, il, pe :: rest⟩ e =
      WriteRaw sink ⟨log, (il + SIZE_RANGE - 1) % SIZE_RANGE, rest⟩
        (indentIf (pe.hasElementChild &&
              ShouldIndent ⟨log, (il + SIZE_RANGE - 1) % SIZE_RANGE, rest⟩)
            ((il + SIZE_RANGE - 1) % SIZE_RANGE)
          ++ closeTagText pe.entity.DNameData) := by
  simp [WriteEndElement, hf, indentIf, closeTagText]

theorem WriteEndElement_unflushed (sink : SinkBehaviour) (log : List (Str × Bool)) (il : Nat)
    (pe : PendingElement) (rest : List PendingElement) (e : SXMLEntity)
    (hf : pe.flushed = false) :
    WriteEndElement sink ⟨log, il, pe :: rest⟩ e =
      if (WriteRaw sink ⟨log, il, rest⟩
          (indentIf (ShouldIndent ⟨log, il, rest⟩) il ++ openTagText pe.entity)).1 = true then
        WriteRaw sink
          ⟨log ++ [(indentIf (ShouldIndent ⟨log, il, rest⟩) il ++ openTagText pe.entity, true)],
            ((il + 1) % SIZE_RANGE + SIZE_RANGE - 1) % SIZE_RANGE, rest⟩
          (indentIf (pe.hasElementChild &&
                ShouldIndent ⟨log, ((il + 1) % SIZE_RANGE + SIZE_RANGE - 1) % SIZE_RANGE, rest⟩)
              (((il + 1) % SIZE_RANGE + SIZE_RANGE - 1) % SIZE_RANGE)
            ++ closeTagText pe.entity.DNameData)
      else
        (false,
          ⟨log ++ [(indentIf (ShouldIndent ⟨log, il, rest⟩) il ++ openTagText pe.entity, false)],
            il, rest⟩) := by
  have hSI : ∀ l k, ShouldIndent ⟨l, k, rest⟩ = ShouldIndent ⟨log, k, rest⟩ := fun _ _ => rfl
  simp only [WriteEndElement, WriteRaw, hf, indentIf, openTagText, closeTagText,
    appendAttributes_eq, List.append_assoc, hSI _ _, Bool.not_false, if_true]
  split_ifs <;> simp_all

theorem WriteEntity_EndElement (sink : SinkBehaviour) (s : SImplementation) (e : SXMLEntity)
    (he : e.DType = EType.EndElement) : WriteEntity sink s e = WriteEndElement sink s e := by
  simp [WriteEntity, he]

theorem WriteEntity_CompleteElement (sink : SinkBehaviour) (s : SImplementation)
    (e : SXMLEntity) (he : e.DType = EType.CompleteElement) :
    WriteEntity sink s e = WriteCompleteElement sink s e := by
  simp [WriteEntity, he]

theorem Inv_IndentLevel_lt (s : SImplementation) (h : Inv s) : s.IndentLevel < SIZE_RANGE := by
  rw [h.1]; exact Nat.mod_lt _ (by decide)

theorem Inv_IndentLevel_eq (s : SImplementation) (h : Inv s)
    (hlen : s.pendingStack.length < SIZE_RANGE) :
    s.IndentLevel = s.pendingStack.countP (fun pe => pe.flushed) := by
  rw [h.1]
  exact Nat.mod_eq_of_lt (Nat.lt_of_le_of_lt (List.countP_le_length _) hlen)

/-! ### Single operations in reachable states -/

/-- C14: in a reachable state with an empty stack, `CompleteElement(name, attrs)`
makes exactly one call on the sink, with the buffer `<name` + attributes + `/>`
and nothing before it, and returns the sink's answer (success for an accepting
sink); on a fresh writer with an accepting sink, `CompleteElement("element")`
leaves `<element/>` in the sink. -/
theorem completeElement_at_top_level (sink : SinkBehaviour) (s : SImplementation)
    (hr : Reachable sink s) (hs : s.pendingStack = []) (e : SXMLEntity)
    (he : e.DType = EType.CompleteElement) :
    (WriteEntity sink s e).2.dsink
        = s.dsink ++ [("<".toList ++ e.DNameData ++ attributesText e.DAttributes ++ "/>".toList,
            sink s.dsink
              ("<".toList ++ e.DNameData ++ attributesText e.DAttributes ++ "/>".toList))] ∧
      (WriteEntity sink s e).1
        = sink s.dsink
            ("<".toList ++ e.DNameData ++ attributesText e.DAttributes ++ "/>".toList) ∧
      (WriteEntity acceptAll s e).1 = true ∧
      sinkString (WriteEntity acceptAll fresh ⟨EType.CompleteElement, "element".toList, []⟩).2
        = "<element/>".toList := by
  have hi : s.IndentLevel = 0 := by
    have h := (Inv_of_Reachable sink s hr).1
    rw [hs] at h
    simpa using h
  have key : ∀ sk : SinkBehaviour, WriteEntity sk s e = WriteRaw sk s (completeTagText e) := by
    intro sk
    rw [WriteEntity_CompleteElement sk s e he, WriteCompleteElement_eq]
    have hfp : FlushPending sk s = (true, s) := by simp [FlushPending, hs]
    have hm : markElementChild s = s := by simp [markElementChild, hs]
    simp [hfp, hm, ShouldIndent, hs, hi, indentIf]
  refine ⟨?_, ?_, ?_, by decide⟩
  · rw [key]; simp [WriteRaw, completeTagText]
  · rw [key]; simp [WriteRaw, completeTagText]
  · rw [key]; rfl

theorem completeElement_at_top_level_witness :
    (WriteEntity acceptAll
        (writeAll acceptAll fresh
          [⟨EType.StartElement, "a".toList, []⟩, ⟨EType.EndElement, "a".toList, []⟩]).2
        ⟨EType.CompleteElement, "b".toList, [("k".toList, "v".toList)]⟩).2.dsink
      = [("<a>".toList, true), ("</a>".toList, true), ("<b k=\"v\"/>".toList, true)] :=
  (completeElement_at_top_level acceptAll
    (writeAll acceptAll fresh
      [⟨EType.StartElement, "a".toList, []⟩, ⟨EType.EndElement, "a".toList, []⟩]).2
    (Reachable_writeAll acceptAll _ fresh Reachable.fresh) (by decide)
    ⟨EType.CompleteElement, "b".toList, [("k".toList, "v".toList)]⟩ rfl).1

/-- C18: in every reachable state a frame is unflushed exactly when it has
neither an element child nor a text child; so a frame that `EndElement` pops
unflushed has no child, and the call offers its opening tag and then, if that
is accepted, its closing tag `</name>` with nothing before it. -/
theorem unflushed_frame_is_empty (sink : SinkBehaviour) (s : SImplementation)
    (hr : Reachable sink s) :
    (∀ pe ∈ s.pendingStack,
      (pe.flushed = false ↔ (pe.hasElementChild = false ∧ pe.hasTextChild = false))) ∧
    (∀ (pe : PendingElement) (rest : List PendingElement) (e : SXMLEntity),
      s.pendingStack = pe :: rest → pe.flushed = false → e.DType = EType.EndElement →
      pe.hasElementChild = false ∧ pe.hasTextChild = false ∧
      WriteEntity sink s e =
        if (WriteRaw sink ⟨s.dsink, s.IndentLevel, rest⟩
            (indentIf (ShouldIndent ⟨s.dsink, s.IndentLevel, rest⟩) s.IndentLevel
              ++ openTagText pe.entity)).1 = true then
          WriteRaw sink
            ⟨s.dsink ++ [(indentIf (ShouldIndent ⟨s.dsink, s.IndentLevel, rest⟩) s.IndentLevel
                ++ openTagText pe.entity, true)], s.IndentLevel, rest⟩
            ("</".toList ++ pe.entity.DNameData ++ ">".toList)
        else
          (false,
            ⟨s.dsink ++ [(indentIf (ShouldIndent ⟨s.dsink, s.IndentLevel, rest⟩) s.IndentLevel
                ++ openTagText pe.entity, false)], s.IndentLevel, rest⟩)) := by
  have hinv := Inv_of_Reachable sink s hr
  have hflags : ∀ pe ∈ s.pendingStack,
      (pe.flushed = false ↔ (pe.hasElementChild = false ∧ pe.hasTextChild = false)) := by
    intro pe hpe
    rw [hinv.2.2 pe hpe]
    cases pe.hasElementChild <;> cases pe.hasTextChild <;> simp
  refine ⟨hflags, ?_⟩
  intro pe rest e hs hf he
  have hno := (hflags pe (by rw [hs]; exact List.mem_cons_self _ _)).mp hf
  refine ⟨hno.1, hno.2, ?_⟩
  have hil := Inv_IndentLevel_lt s hinv
  rcases s with ⟨log, il, stack⟩
  simp only at hs hil
  subst hs
  rw [WriteEntity_EndElement sink _ e he, WriteEndElement_unflushed sink log il pe rest e hf]
  simp [hno.1, incr_decr_lt il hil, indentIf, closeTagText]

theorem unflushed_frame_is_empty_witness :
    (WriteEntity acceptAll
        (writeAll acceptAll fresh
          [⟨EType.StartElement, "a".toList, []⟩, ⟨EType.StartElement, "b".toList, []⟩]).2
        ⟨EType.EndElement, "b".toList, []⟩).2.dsink
      = [("<a>".toList, true), ("\n\t<b>".toList, true), ("</b>".toList, true)] :=
  congrArg (fun r => r.2.dsink)
    (((unflushed_frame_is_empty acceptAll
      (writeAll acceptAll fresh
        [⟨EType.StartElement, "a".toList, []⟩, ⟨EType.StartElement, "b".toList, []⟩]).2
      (Reachable_writeAll acceptAll _ fresh Reachable.fresh)).2
      ⟨⟨EType.StartElement, "b".toList, []⟩, false, false, false⟩
      [⟨⟨EType.StartElement, "a".toList, []⟩, true, true, false⟩]
      ⟨EType.EndElement, "b".toList, []⟩ (by decide) rfl rfl).2.2)

theorem decr_no_wrap (x : Nat) (h0 : 0 < x) (h : x < SIZE_RANGE) :
    (x + SIZE_RANGE - 1) % SIZE_RANGE = x - 1 := by
  simp only [SIZE_RANGE] at h ⊢; omega

theorem succ_mod_pos (x : Nat) (h : x + 1 < SIZE_RANGE) : 0 < (x + 1) % SIZE_RANGE := by
  simp only [SIZE_RANGE] at h ⊢; omega

/-- C19: in every reachable state, for any sink behaviour (the stack holding fewer
than `2 ^ 64` frames), `IndentLevel` is the number of flushed frames of the
stack and every frame below the top is flushed; so `IndentLevel` is 0 when the
stack is empty, and the value that `EndElement` decrements is positive, the
decrement giving one less without wrapping. -/
theorem counter_matches_stack (sink : SinkBehaviour) (s : SImplementation)
    (hr : Reachable sink s) (hlen : s.pendingStack.length < SIZE_RANGE) :
    s.IndentLevel = s.pendingStack.countP (fun pe => pe.flushed) ∧
    (∀ pe ∈ s.pendingStack.tail, pe.flushed = true) ∧
    (s.pendingStack = [] → s.IndentLevel = 0) ∧
    (∀ (pe : PendingElement) (rest : List PendingElement), s.pendingStack = pe :: rest →
      (pe.flushed = true →
        0 < s.IndentLevel ∧
          (s.IndentLevel + SIZE_RANGE - 1) % SIZE_RANGE = s.IndentLevel - 1) ∧
      (pe.flushed = false →
        0 < (s.IndentLevel + 1) % SIZE_RANGE ∧
          ((s.IndentLevel + 1) % SIZE_RANGE + SIZE_RANGE - 1) % SIZE_RANGE
            = s.IndentLevel)) := by
  have hinv := Inv_of_Reachable sink s hr
  have heq := Inv_IndentLevel_eq s hinv hlen
  have hlt := Inv_IndentLevel_lt s hinv
  refine ⟨heq, hinv.2.1, ?_, ?_⟩
  · intro hs
    rw [heq, hs]; rfl
  · intro pe rest hs
    rw [hs] at heq hlen
    constructor
    · intro hf
      have hpos : 0 < s.IndentLevel := by
        rw [heq, List.countP_cons]
        simp [hf]
      exact ⟨hpos, decr_no_wrap _ hpos hlt⟩
    · intro hf
      have hle : s.IndentLevel + 1 < SIZE_RANGE := by
        have h1 : s.IndentLevel ≤ rest.length := by
          rw [heq, List.countP_cons]
          simp only [hf, Bool.false_eq_true, if_false, Nat.add_zero]
          exact List.countP_le_length _
        simp only [List.length_cons] at hlen
        omega
      exact ⟨succ_mod_pos _ hle, incr_decr_lt _ hlt⟩

theorem counter_matches_stack_witness :
    (writeAll acceptAll fresh
        [⟨EType.StartElement, "a".toList, []⟩, ⟨EType.StartElement, "b".toList, []⟩,
          ⟨EType.CharData, "x".toList, []⟩, ⟨EType.StartElement, "c".toList, []⟩]).2.IndentLevel
      = 2 :=
  (counter_matches_stack acceptAll
    (writeAll acceptAll fresh
      [⟨EType.StartElement, "a".toList, []⟩, ⟨EType.StartElement, "b".toList, []⟩,
        ⟨EType.CharData, "x".toList, []⟩, ⟨EType.StartElement, "c".toList, []⟩]).2
    (Reachable_writeAll acceptAll _ fresh Reachable.fresh) (by decide)).1

/-- C13: two `EndElement` events, whatever their names and attributes, have the
same result, the same sink calls and the same final state; when the call
succeeds, the last buffer written is the closing tag `</n>` (after at most an
indentation prefix) for the name `n` stored in the top frame, and that frame
holds the entity of the `StartElement` call that pushed it. -/
theorem endElement_name_ignored (sink : SinkBehaviour) (s : SImplementation)
    (e1 e2 : SXMLEntity) (h1 : e1.DType = EType.EndElement) (h2 : e2.DType = EType.EndElement) :
    WriteEntity sink s e1 = WriteEntity sink s e2 ∧
    (∀ (pe : PendingElement) (rest : List PendingElement), s.pendingStack = pe :: rest →
      (WriteEntity sink s e1).1 = true →
      ∃ k : Nat,
        (WriteEntity sink s e1).2.dsink.getLast?
            = some ("</".toList ++ pe.entity.DNameData ++ ">".toList, true) ∨
          (WriteEntity sink s e1).2.dsink.getLast?
            = some (indentText k ++ ("</".toList ++ pe.entity.DNameData ++ ">".toList), true)) ∧
    (∀ (n : Str) (a : List (Str × Str)),
      (WriteEntity sink s ⟨EType.StartElement, n, a⟩).1 = true →
      (WriteEntity sink s ⟨EType.StartElement, n, a⟩).2.pendingStack.head?
        = some { entity := ⟨EType.StartElement, n, a⟩ }) := by
  refine ⟨?_, ?_, ?_⟩
  · rw [WriteEntity_EndElement sink s e1 h1, WriteEntity_EndElement sink s e2 h2]
    rfl
  · intro pe rest hs hok
    rcases s with ⟨log, il, stack⟩
    simp only at hs
    subst hs
    rw [WriteEntity_EndElement sink _ e1 h1] at hok ⊢
    cases hf : pe.flushed
    · rw [WriteEndElement_unflushed sink log il pe rest e1 hf] at hok ⊢
      split_ifs at hok ⊢ with hw
      refine ⟨((il + 1) % SIZE_RANGE + SIZE_RANGE - 1) % SIZE_RANGE, ?_⟩
      simp only [WriteRaw] at hok ⊢
      rw [hok]
      rcases indentIf_cases (pe.hasElementChild &&
          ShouldIndent ⟨log, ((il + 1) % SIZE_RANGE + SIZE_RANGE - 1) % SIZE_RANGE, rest⟩)
        (((il + 1) % SIZE_RANGE + SIZE_RANGE - 1) % SIZE_RANGE) with h | h
      · left; simp [h, closeTagText]
      · right; simp [h, closeTagText]
    · rw [WriteEndElement_flushed sink log il pe rest e1 hf] at hok ⊢
      refine ⟨(il + SIZE_RANGE - 1) % SIZE_RANGE, ?_⟩
      simp only [WriteRaw] at hok ⊢
      rw [hok]
      rcases indentIf_cases (pe.hasElementChild &&
          ShouldIndent ⟨log, (il + SIZE_RANGE - 1) % SIZE_RANGE, rest⟩)
        ((il + SIZE_RANGE - 1) % SIZE_RANGE) with h | h
      · left; simp [h, closeTagText]
      · right; simp [h, closeTagText]
  · intro n a hok
    simp only [WriteEntity, WriteStartElement] at hok ⊢
    split_ifs at hok ⊢ with hfp
    simp

theorem endElement_name_ignored_witness :
    WriteEntity acceptAll (WriteEntity acceptAll fresh ⟨EType.StartElement, "a".toList, []⟩).2
        ⟨EType.EndElement, "a".toList, []⟩
      = WriteEntity acceptAll (WriteEntity acceptAll fresh ⟨EType.StartElement, "a".toList, []⟩).2
        ⟨EType.EndElement, "zzz".toList, [("k".toList, "v".toList)]⟩ :=
  (endElement_name_ignored acceptAll
    (WriteEntity acceptAll fresh ⟨EType.StartElement, "a".toList, []⟩).2
    ⟨EType.EndElement, "a".toList, []⟩
    ⟨EType.EndElement, "zzz".toList, [("k".toList, "v".toList)]⟩ rfl rfl).1

/-! ### Indentation -/

theorem ShouldIndent_cons (log : List (Str × Bool)) (k : Nat) (p : PendingElement)
    (rest : List PendingElement) :
    ShouldIndent ⟨log, k, p :: rest⟩
      = (!decide (p.entity.DNameData = "osm".toList) && decide (0 < k)) := by
  by_cases h : p.entity.DNameData = "osm".toList <;> simp [ShouldIndent, h]

theorem FlushPending_cons_top (sink : SinkBehaviour) (log : List (Str × Bool)) (il : Nat)
    (p : PendingElement) (rest : List PendingElement)
    (hok : (FlushPending sink ⟨log, il, p :: rest⟩).1 = true) :
    (markElementChild (FlushPending sink ⟨log, il, p :: rest⟩).2).pendingStack
      = { p with flushed := true, hasElementChild := true } :: rest := by
  rcases p with ⟨ent, fl, hc, ht⟩
  cases fl
  · cases hw : sink log (openTagText ent)
    · simp [FlushPending, WriteRaw, hw] at hok
    · simp [FlushPending, WriteRaw, hw, markElementChild]
  · simp [FlushPending, markElementChild]

/-- C11: for any state, with `p` the frame on top at the decision.  A
`CompleteElement` whose parent `p` is flushed successfully is written as one
buffer: its tag, preceded by a newline and `IndentLevel` tabs exactly when `p` is
not named `osm` and `IndentLevel > 0`.  An `EndElement` for a child of `p`
offers the child's opening tag (if still unflushed) with that prefix exactly
when `p` is not named `osm` and `IndentLevel > 0`, and its closing tag with the
prefix exactly when moreover the child has an element child.  Under a parent
named `osm` no prefix is written, whatever `IndentLevel` is. -/
theorem indentation_by_parent (sink : SinkBehaviour) (log : List (Str × Bool)) (il : Nat)
    (p child : PendingElement) (rest : List PendingElement)
    (n endName : Str) (attrs endAttrs : List (Str × Str)) :
    ((FlushPending sink ⟨log, il, p :: rest⟩).1 = true →
      WriteEntity sink ⟨log, il, p :: rest⟩ ⟨EType.CompleteElement, n, attrs⟩ =
        WriteRaw sink (markElementChild (FlushPending sink ⟨log, il, p :: rest⟩).2)
          (indentIf (!decide (p.entity.DNameData = "osm".toList) &&
                decide (0 < (FlushPending sink ⟨log, il, p :: rest⟩).2.IndentLevel))
              (FlushPending sink ⟨log, il, p :: rest⟩).2.IndentLevel
            ++ completeTagText ⟨EType.CompleteElement, n, attrs⟩)) ∧
    (child.flushed = true →
      WriteEntity sink ⟨log, il, child :: p :: rest⟩ ⟨EType.EndElement, endName, endAttrs⟩ =
        WriteRaw sink ⟨log, (il + SIZE_RANGE - 1) % SIZE_RANGE, p :: rest⟩
          (indentIf (child.hasElementChild && (!decide (p.entity.DNameData = "osm".toList) &&
                decide (0 < (il + SIZE_RANGE - 1) % SIZE_RANGE)))
              ((il + SIZE_RANGE - 1) % SIZE_RANGE)
            ++ closeTagText child.entity.DNameData)) ∧
    (child.flushed = false →
      WriteEntity sink ⟨log, il, child :: p :: rest⟩ ⟨EType.EndElement, endName, endAttrs⟩ =
        if sink log (indentIf (!decide (p.entity.DNameData = "osm".toList) && decide (0 < il)) il
            ++ openTagText child.entity) = true then
          WriteRaw sink
            ⟨log ++ [(indentIf (!decide (p.entity.DNameData = "osm".toList) && decide (0 < il)) il
                ++ openTagText child.entity, true)],
              ((il + 1) % SIZE_RANGE + SIZE_RANGE - 1) % SIZE_RANGE, p :: rest⟩
            (indentIf (child.hasElementChild && (!decide (p.entity.DNameData = "osm".toList) &&
                  decide (0 < ((il + 1) % SIZE_RANGE + SIZE_RANGE - 1) % SIZE_RANGE)))
                (((il + 1) % SIZE_RANGE + SIZE_RANGE - 1) % SIZE_RANGE)
              ++ closeTagText child.entity.DNameData)
        else
          (false,
            ⟨log ++ [(indentIf (!decide (p.entity.DNameData = "osm".toList) && decide (0 < il)) il
                ++ openTagText child.entity, false)], il, p :: rest⟩)) := by
  refine ⟨?_, ?_, ?_⟩
  · intro hok
    rw [WriteEntity_CompleteElement _ _ _ rfl, WriteCompleteElement_eq, if_pos hok]
    have hst := FlushPending_cons_top sink log il p rest hok
    have hsi : ShouldIndent (markElementChild (FlushPending sink ⟨log, il, p :: rest⟩).2)
        = (!decide (p.entity.DNameData = "osm".toList) &&
            decide (0 < (FlushPending sink ⟨log, il, p :: rest⟩).2.IndentLevel)) := by
      unfold ShouldIndent
      rw [hst, (markElementChild_fields _).2]
      by_cases h : p.entity.DNameData = "osm".toList <;> simp [h]
    rw [hsi, (markElementChild_fields _).2]
  · intro hf
    rw [WriteEntity_EndElement _ _ _ rfl, WriteEndElement_flushed sink log il child _ _ hf,
      ShouldIndent_cons]
  · intro hf
    rw [WriteEntity_EndElement _ _ _ rfl, WriteEndElement_unflushed sink log il child _ _ hf,
      ShouldIndent_cons, ShouldIndent_cons]
    rfl

theorem indentation_by_parent_witness :
    WriteEntity acceptAll
        ⟨[], 7, [⟨⟨EType.StartElement, "node".toList, []⟩, true, true, false⟩,
          ⟨⟨EType.StartElement, "osm".toList, []⟩, true, true, false⟩]⟩
        ⟨EType.EndElement, [], []⟩
      = (true, ⟨[("</node>".toList, true)], 6,
          [⟨⟨EType.StartElement, "osm".toList, []⟩, true, true, false⟩]⟩) :=
  (indentation_by_parent acceptAll [] 7 ⟨⟨EType.StartElement, "osm".toList, []⟩, true, true, false⟩
    ⟨⟨EType.StartElement, "node".toList, []⟩, true, true, false⟩ [] [] [] [] []).2.1 rfl

theorem countP_flushed_eq_length (l : List PendingElement)
    (h : ∀ pe ∈ l, pe.flushed = true) : l.countP (fun pe => pe.flushed) = l.length :=
  List.countP_eq_length.mpr (fun x hx => h x hx)

theorem WriteRaw_fields (sink : SinkBehaviour) (s : SImplementation) (d : Str) :
    (WriteRaw sink s d).2.IndentLevel = s.IndentLevel ∧
      (WriteRaw sink s d).2.pendingStack = s.pendingStack := ⟨rfl, rfl⟩

theorem Inv_congr (s t : SImplementation) (h : Inv s)
    (h1 : t.IndentLevel = s.IndentLevel) (h2 : t.pendingStack = s.pendingStack) : Inv t := by
  unfold Inv at h ⊢
  rw [h1, h2]; exact h

/-- After a successful `FlushPending` and the marking of the top frame, every
frame is flushed and `IndentLevel` is the number of frames. -/
theorem IndentLevel_after_flush (sink : SinkBehaviour) (s : SImplementation) (h : Inv s)
    (hlen : s.pendingStack.length < SIZE_RANGE) (hok : (FlushPending sink s).1 = true) :
    (markElementChild (FlushPending sink s).2).IndentLevel
      = (markElementChild (FlushPending sink s).2).pendingStack.length := by
  have hinv : Inv (markElementChild (FlushPending sink s).2) := by
    have h0 := Inv_WriteCompleteElement sink s ⟨EType.CompleteElement, [], []⟩ h
    rw [WriteCompleteElement_eq, if_pos hok] at h0
    exact Inv_congr _ _ h0 rfl rfl
  have hl : (markElementChild (FlushPending sink s).2).pendingStack.length
      = s.pendingStack.length := by
    have := congrArg List.length
      ((markElementChild_entities (FlushPending sink s).2).trans (FlushPending_entities sink s))
    simpa using this
  rw [Inv_IndentLevel_eq _ hinv (by rw [hl]; exact hlen)]
  apply countP_flushed_eq_length
  intro pe hpe
  cases hst : (markElementChild (FlushPending sink s).2).pendingStack with
  | nil => rw [hst] at hpe; cases hpe
  | cons top rest =>
    rw [hst] at hpe
    rcases List.mem_cons.mp hpe with rfl | hmem
    · have h3 := hinv.2.2 pe (by rw [hst]; exact List.mem_cons_self _ _)
      have htop : pe.hasElementChild = true := by
        have hm : (markElementChild (FlushPending sink s).2).pendingStack.head? = some pe := by
          rw [hst]; rfl
        unfold markElementChild at hm
        split at hm
        · simp at hm; rw [← hm]
        · rename_i hnil
          rw [hnil] at hm; simp at hm
      rw [h3, htop]; rfl
    · exact hinv.2.1 pe (by rw [hst]; exact hmem)

/-- C16: in every reachable state, for any sink behaviour (the stack holding fewer
than `2 ^ 64` frames), each indentation prefix is a newline followed by as many
tabs as there are frames on the stack at the moment of the write: before a
`CompleteElement` tag the frames of the stack, before the opening tag of an empty
element and before a closing tag the frames left after the pop. -/
theorem one_tab_per_level (sink : SinkBehaviour) (s : SImplementation)
    (hr : Reachable sink s) (hlen : s.pendingStack.length < SIZE_RANGE) :
    (∀ e : SXMLEntity, e.DType = EType.CompleteElement → (FlushPending sink s).1 = true →
      WriteEntity sink s e =
        WriteRaw sink (markElementChild (FlushPending sink s).2)
          (indentIf (ShouldIndent (markElementChild (FlushPending sink s).2))
              (markElementChild (FlushPending sink s).2).pendingStack.length
            ++ completeTagText e)) ∧
    (∀ (e : SXMLEntity) (pe : PendingElement) (rest : List PendingElement),
      e.DType = EType.EndElement → s.pendingStack = pe :: rest →
      (pe.flushed = true →
        WriteEntity sink s e =
          WriteRaw sink ⟨s.dsink, rest.length, rest⟩
            (indentIf (pe.hasElementChild && ShouldIndent ⟨s.dsink, rest.length, rest⟩)
                rest.length
              ++ closeTagText pe.entity.DNameData)) ∧
      (pe.flushed = false →
        WriteEntity sink s e =
          if sink s.dsink (indentIf (ShouldIndent ⟨s.dsink, rest.length, rest⟩) rest.length
              ++ openTagText pe.entity) = true then
            WriteRaw sink
              ⟨s.dsink ++ [(indentIf (ShouldIndent ⟨s.dsink, rest.length, rest⟩) rest.length
                  ++ openTagText pe.entity, true)], rest.length, rest⟩
              (closeTagText pe.entity.DNameData)
          else
            (false,
              ⟨s.dsink ++ [(indentIf (ShouldIndent ⟨s.dsink, rest.length, rest⟩) rest.length
                  ++ openTagText pe.entity, false)], rest.length, rest⟩))) := by
  have hinv := Inv_of_Reachable sink s hr
  have heq := Inv_IndentLevel_eq s hinv hlen
  have hlt := Inv_IndentLevel_lt s hinv
  refine ⟨?_, ?_⟩
  · intro e he hok
    rw [WriteEntity_CompleteElement sink s e he, WriteCompleteElement_eq, if_pos hok,
      IndentLevel_after_flush sink s hinv hlen hok]
  · intro e pe rest he hs
    have hrest : rest.countP (fun pe => pe.flushed) = rest.length :=
      countP_flushed_eq_length rest (by
        intro x hx
        exact hinv.2.1 x (by rw [hs]; exact hx))
    rcases s with ⟨log, il, stack⟩
    simp only at hs heq hlt hlen
    subst hs
    rw [List.countP_cons, hrest] at heq
    constructor
    · intro hf
      simp only [hf, if_true] at heq
      have hdec : (il + SIZE_RANGE - 1) % SIZE_RANGE = rest.length := by
        rw [decr_no_wrap il (by omega) hlt]; omega
      rw [WriteEntity_EndElement sink _ e he, WriteEndElement_flushed sink log il pe rest e hf,
        hdec]
    · intro hf
      simp only [hf, Bool.false_eq_true, if_false, Nat.add_zero] at heq
      have hno : pe.hasElementChild = false := by
        have h3 := hinv.2.2 pe (List.mem_cons_self _ _)
        rw [hf] at h3
        cases hc : pe.hasElementChild
        · rfl
        · rw [hc] at h3; simp at h3
      rw [WriteEntity_EndElement sink _ e he, WriteEndElement_unflushed sink log il pe rest e hf,
        incr_decr_lt il hlt, heq, hno]
      simp [indentIf, WriteRaw]

theorem one_tab_per_level_witness :
    WriteEntity acceptAll
        (writeAll acceptAll fresh
          [⟨EType.StartElement, "a".toList, []⟩, ⟨EType.StartElement, "b".toList, []⟩]).2
        ⟨EType.CompleteElement, "c".toList, []⟩
      = (true, ⟨[("<a>".toList, true), ("<b>".toList, true), ("\n\t\t<c/>".toList, true)], 2,
          [⟨⟨EType.StartElement, "b".toList, []⟩, true, true, false⟩,
            ⟨⟨EType.StartElement, "a".toList, []⟩, true, true, false⟩]⟩) :=
  (one_tab_per_level acceptAll
    (writeAll acceptAll fresh
      [⟨EType.StartElement, "a".toList, []⟩, ⟨EType.StartElement, "b".toList, []⟩]).2
    (Reachable_writeAll acceptAll _ fresh Reachable.fresh) (by decide)).1
    ⟨EType.CompleteElement, "c".toList, []⟩ rfl rfl

/-! ### Failure of a sink write -/

theorem stops_nil (res : Bool) : StopsAtRejection [] res := by
  intro before after d h
  cases before <;> simp at h

theorem stops_single (d : Str) (ok : Bool) : StopsAtRejection [(d, ok)] ok := by
  intro before after d' h
  cases before with
  | nil =>
    simp only [List.nil_append, List.cons.injEq, Prod.mk.injEq] at h
    exact ⟨h.2.symm, h.1.2⟩
  | cons b bs =>
    simp only [List.cons_append, List.cons.injEq] at h
    cases bs <;> simp at h

theorem stops_append (c1 c2 : List (Str × Bool)) (res : Bool) (h1 : AllAccepted c1)
    (h2 : StopsAtRejection c2 res) : StopsAtRejection (c1 ++ c2) res := by
  induction c1 with
  | nil => simpa using h2
  | cons a c1 ih =>
    intro before after d h
    have ha : a.2 = true := h1 a (List.mem_cons_self _ _)
    have h1' : AllAccepted c1 := fun c hc => h1 c (List.mem_cons_of_mem _ hc)
    cases before with
    | nil =>
      simp only [List.cons_append, List.nil_append, List.cons.injEq] at h
      rw [h.1] at ha
      simp at ha
    | cons b bs =>
      simp only [List.cons_append, List.cons.injEq] at h
      exact ih h1' bs after d h.2

theorem allAccepted_append (c1 c2 : List (Str × Bool)) (h1 : AllAccepted c1)
    (h2 : AllAccepted c2) : AllAccepted (c1 ++ c2) := by
  intro c hc
  rcases List.mem_append.mp hc with h | h
  · exact h1 c h
  · exact h2 c h

/-- The calls of `FlushPending`: none, or the single one whose answer it returns. -/
theorem FlushPending_calls (sink : SinkBehaviour) (s : SImplementation) :
    ∃ calls, (FlushPending sink s).2.dsink = s.dsink ++ calls ∧
      StopsAtRejection calls (FlushPending sink s).1 ∧
      ((FlushPending sink s).1 = true → AllAccepted calls) := by
  rcases s with ⟨log, il, _ | ⟨⟨ent, fl, hc, ht⟩, rest⟩⟩
  · exact ⟨[], by simp [FlushPending], stops_nil _, fun _ c hc => by cases hc⟩
  · cases fl
    · cases hw : sink log (openTagText ent)
      · refine ⟨[(openTagText ent, false)], by simp [FlushPending, WriteRaw, hw], ?_, ?_⟩
        · simpa [FlushPending, WriteRaw, hw] using stops_single (openTagText ent) false
        · simp [FlushPending, WriteRaw, hw]
      · refine ⟨[(openTagText ent, true)], by simp [FlushPending, WriteRaw, hw], ?_, ?_⟩
        · simpa [FlushPending, WriteRaw, hw] using stops_single (openTagText ent) true
        · intro _ c hc
          simp at hc; rw [hc]
    · exact ⟨[], by simp [FlushPending], stops_nil _, fun _ c hc => by cases hc⟩

theorem WriteRaw_calls (sink : SinkBehaviour) (s : SImplementation) (d : Str)
    (log0 : List (Str × Bool)) (c1 : List (Str × Bool)) (hs : s.dsink = log0 ++ c1)
    (h1 : AllAccepted c1) :
    ∃ calls, (WriteRaw sink s d).2.dsink = log0 ++ calls ∧
      StopsAtRejection calls (WriteRaw sink s d).1 ∧
      ((WriteRaw sink s d).1 = true → AllAccepted calls) := by
  refine ⟨c1 ++ [(d, sink s.dsink d)], by simp [WriteRaw, hs], ?_, ?_⟩
  · exact stops_append _ _ _ h1 (stops_single d _)
  · intro hok
    apply allAccepted_append _ _ h1
    intro c hc
    simp only [List.mem_singleton] at hc
    rw [hc]; exact hok

theorem WriteEntity_calls (sink : SinkBehaviour) (s : SImplementation) (e : SXMLEntity) :
    ∃ calls, (WriteEntity sink s e).2.dsink = s.dsink ++ calls ∧
      StopsAtRejection calls (WriteEntity sink s e).1 ∧
      ((WriteEntity sink s e).1 = true → AllAccepted calls) := by
  obtain ⟨fc, hfc1, hfc2, hfc3⟩ := FlushPending_calls sink s
  rcases e with ⟨t, n, a⟩
  cases t
  · -- StartElement
    simp only [WriteEntity, WriteStartElement]
    cases hfp : (FlushPending sink s).1
    · rw [hfp] at hfc2
      exact ⟨fc, by simpa using hfc1, by simpa using hfc2, by simp⟩
    · refine ⟨fc, ?_, ?_, ?_⟩
      · simpa [(markElementChild_fields _).1] using hfc1
      · intro b af d h
        have := hfc3 hfp (d, false) (by rw [h]; simp)
        simp at this
      · intro _; exact hfc3 hfp
  · -- EndElement
    rw [WriteEntity_EndElement sink s _ rfl]
    rcases s with ⟨log, il, _ | ⟨pe, rest⟩⟩
    · exact ⟨[], by simp [WriteEndElement], stops_nil _, by simp [WriteEndElement]⟩
    · cases hf : pe.flushed
      · rw [WriteEndElement_unflushed sink log il pe rest _ hf]
        split_ifs with hw
        · exact WriteRaw_calls sink _ _ log [_] rfl (by
            intro c hc
            simp only [List.mem_singleton] at hc
            rw [hc])
        · exact ⟨[_], rfl, stops_single _ false, by simp⟩
      · rw [WriteEndElement_flushed sink log il pe rest _ hf]
        exact WriteRaw_calls sink _ _ log [] (by simp) (fun c hc => by cases hc)
  · -- CharData
    simp only [WriteEntity, WriteCharData]
    cases hfp : (FlushPending sink s).1
    · rw [hfp] at hfc2
      exact ⟨fc, by simpa using hfc1, by simpa using hfc2, by simp⟩
    · simp only [Bool.not_true, Bool.false_eq_true, if_false]
      exact WriteRaw_calls sink _ _ s.dsink fc
        (by rw [(markTextChild_fields _).1]; exact hfc1) (hfc3 hfp)
  · -- CompleteElement
    rw [WriteEntity_CompleteElement sink s _ rfl, WriteCompleteElement_eq]
    cases hfp : (FlushPending sink s).1
    · rw [hfp] at hfc2
      exact ⟨fc, by simpa using hfc1, by simpa using hfc2, by simp⟩
    · simp only [if_true]
      exact WriteRaw_calls sink _ _ s.dsink fc
        (by rw [(markElementChild_fields _).1]; exact hfc1) (hfc3 hfp)

theorem WriteEndElement_pendingStack (sink : SinkBehaviour) (s : SImplementation)
    (e : SXMLEntity) (pe : PendingElement) (rest : List PendingElement)
    (hs : s.pendingStack = pe :: rest) :
    (WriteEndElement sink s e).2.pendingStack = rest := by
  rcases s with ⟨log, il, stack⟩
  simp only at hs
  subst hs
  cases hf : pe.flushed
  · rw [WriteEndElement_unflushed sink log il pe rest e hf]
    split_ifs <;> rfl
  · rw [WriteEndElement_flushed sink log il pe rest e hf]
    rfl

theorem FlushLoop_total (sink : SinkBehaviour) (fuel : Nat) :
    ∀ s : SImplementation, s.pendingStack.length ≤ fuel →
      ∃ r, FlushLoop sink fuel s = some r := by
  induction fuel with
  | zero =>
    intro s h
    have : s.pendingStack = [] := List.length_eq_zero.mp (Nat.le_zero.mp h)
    exact ⟨(true, s), by simp [FlushLoop, this]⟩
  | succ fuel ih =>
    intro s h
    cases hs : s.pendingStack with
    | nil => exact ⟨(true, s), by simp [FlushLoop, hs]⟩
    | cons pe rest =>
      simp only [FlushLoop, hs, List.isEmpty_cons, Bool.false_eq_true, if_false]
      split_ifs with hw
      · exact ⟨_, rfl⟩
      · apply ih
        rw [WriteEndElement_pendingStack sink s _ pe rest hs]
        rw [hs] at h
        simpa using h

theorem FlushLoop_calls (sink : SinkBehaviour) (fuel : Nat) :
    ∀ (s : SImplementation) (r : Bool × SImplementation), FlushLoop sink fuel s = some r →
      ∃ calls, r.2.dsink = s.dsink ++ calls ∧ StopsAtRejection calls r.1 ∧
        (r.1 = true → AllAccepted calls) := by
  induction fuel with
  | zero =>
    intro s r h
    simp only [FlushLoop] at h
    split_ifs at h
    cases h
    exact ⟨[], by simp, stops_nil _, fun _ c hc => by cases hc⟩
  | succ fuel ih =>
    intro s r h
    simp only [FlushLoop] at h
    split_ifs at h with h1 h2
    · cases h
      exact ⟨[], by simp, stops_nil _, fun _ c hc => by cases hc⟩
    · cases h
      obtain ⟨c1, hc1, hc2, _⟩ := WriteEntity_calls sink s defaultEntity
      rw [WriteEntity_EndElement sink s defaultEntity rfl] at hc1 hc2
      have hno : (WriteEndElement sink s defaultEntity).1 = false := by simpa using h2
      rw [hno] at hc2
      exact ⟨c1, hc1, hc2, by simp⟩
    · obtain ⟨c1, hc1, _, hc3⟩ := WriteEntity_calls sink s defaultEntity
      rw [WriteEntity_EndElement sink s defaultEntity rfl] at hc1 hc3
      obtain ⟨c2, hd1, hd2, hd3⟩ := ih _ r h
      have hok : (WriteEndElement sink s defaultEntity).1 = true := by simpa using h2
      refine ⟨c1 ++ c2, ?_, stops_append _ _ _ (hc3 hok) hd2, ?_⟩
      · rw [hd1, hc1, List.append_assoc]
      · intro hr
        exact allAccepted_append _ _ (hc3 hok) (hd3 hr)

/-- C12: for every state, event and sink behaviour, the sink calls that a
`WriteEntity` call adds to the record stop at the first rejected one and the
call then returns failure; the same holds for the calls of `Flush`, which always
returns.  With a sink that rejects, `CharData` after `StartElement` offers the
opening tag only, and `Flush` of two open elements offers one buffer only. -/
theorem rejected_write_aborts (sink : SinkBehaviour) (s : SImplementation) (e : SXMLEntity) :
    (∃ calls, (WriteEntity sink s e).2.dsink = s.dsink ++ calls ∧
      StopsAtRejection calls (WriteEntity sink s e).1) ∧
    (∃ r calls, Flush sink s = some r ∧ r.2.dsink = s.dsink ++ calls ∧
      StopsAtRejection calls r.1) ∧
    WriteEntity rejectAll (WriteEntity acceptAll fresh ⟨EType.StartElement, "a".toList, []⟩).2
        ⟨EType.CharData, "x".toList, []⟩
      = (false, ⟨[("<a>".toList, false)], 0, [{ entity := ⟨EType.StartElement, "a".toList, []⟩ }]⟩) ∧
    (Flush rejectAll (writeAll acceptAll fresh
        [⟨EType.StartElement, "a".toList, []⟩, ⟨EType.StartElement, "b".toList, []⟩]).2).map
        (fun r => (r.1, r.2.dsink))
      = some (false, [("<a>".toList, true), ("\n\t<b>".toList, false)]) := by
  refine ⟨?_, ?_, by decide, by decide⟩
  · obtain ⟨calls, h1, h2, _⟩ := WriteEntity_calls sink s e
    exact ⟨calls, h1, h2⟩
  · obtain ⟨r, hr⟩ := FlushLoop_total sink s.pendingStack.length s (Nat.le_refl _)
    obtain ⟨calls, h1, h2, _⟩ := FlushLoop_calls sink _ s r hr
    exact ⟨r, calls, hr, h1, h2⟩

/-! ### Flush -/

theorem stripIndent_tabs (k : Nat) (r : Str) :
    stripIndent (List.replicate k '\t' ++ '<' :: r) = '<' :: r := by
  induction k with
  | zero => simp [stripIndent, List.dropWhile]
  | succ k ih =>
    simp only [List.replicate_succ, List.cons_append]
    simp only [stripIndent] at ih ⊢
    simp [List.dropWhile, ih]

theorem stripIndent_indentIf (b : Bool) (k : Nat) (r : Str) :
    stripIndent (indentIf b k ++ '<' :: r) = '<' :: r := by
  cases b
  · simp [indentIf, stripIndent, List.dropWhile]
  · have h := stripIndent_tabs k r
    simp only [indentIf, indentText, if_true]
    simp only [stripIndent] at h ⊢
    simp [List.dropWhile, h]

theorem stripIndent_openTag (b : Bool) (k : Nat) (e : SXMLEntity) :
    stripIndent (indentIf b k ++ openTagText e) = openTagText e := by
  have h : openTagText e
      = '<' :: (e.DNameData ++ attributesText e.DAttributes ++ ">".toList) := by
    simp [openTagText_eq]
  rw [h, stripIndent_indentIf]

theorem stripIndent_closeTag (b : Bool) (k : Nat) (n : Str) :
    stripIndent (indentIf b k ++ closeTagText n) = closeTagText n := by
  have h : closeTagText n = '<' :: ('/' :: (n ++ ">".toList)) := by
    simp [closeTagText]
  rw [h, stripIndent_indentIf]

theorem WriteEndElement_acceptAll_step (log : List (Str × Bool)) (il : Nat)
    (pe : PendingElement) (rest : List PendingElement) (e : SXMLEntity) :
    ∃ (c1 : List (Str × Bool)) (il' : Nat),
      WriteEndElement acceptAll ⟨log, il, pe :: rest⟩ e = (true, ⟨log ++ c1, il', rest⟩) ∧
      AllAccepted c1 ∧ c1.map (fun c => stripIndent c.1) = closingTags pe := by
  cases hf : pe.flushed
  · rw [WriteEndElement_unflushed acceptAll log il pe rest e hf]
    refine ⟨[(indentIf (ShouldIndent ⟨log, il, rest⟩) il ++ openTagText pe.entity, true),
        (indentIf (pe.hasElementChild &&
              ShouldIndent ⟨log, ((il + 1) % SIZE_RANGE + SIZE_RANGE - 1) % SIZE_RANGE, rest⟩)
            (((il + 1) % SIZE_RANGE + SIZE_RANGE - 1) % SIZE_RANGE)
          ++ closeTagText pe.entity.DNameData, true)],
      ((il + 1) % SIZE_RANGE + SIZE_RANGE - 1) % SIZE_RANGE, ?_, ?_, ?_⟩
    · simp only [WriteRaw, acceptAll, if_true, List.append_assoc, List.singleton_append]
    · intro c hc
      simp only [List.mem_cons, List.mem_singleton, List.not_mem_nil, or_false] at hc
      rcases hc with rfl | rfl <;> rfl
    · simp [closingTags, hf, stripIndent_openTag, stripIndent_closeTag]
  · rw [WriteEndElement_flushed acceptAll log il pe rest e hf]
    refine ⟨[(indentIf (pe.hasElementChild &&
              ShouldIndent ⟨log, (il + SIZE_RANGE - 1) % SIZE_RANGE, rest⟩)
            ((il + SIZE_RANGE - 1) % SIZE_RANGE)
          ++ closeTagText pe.entity.DNameData, true)],
      (il + SIZE_RANGE - 1) % SIZE_RANGE, ?_, ?_, ?_⟩
    · simp only [WriteRaw, acceptAll]
    · intro c hc
      simp only [List.mem_singleton] at hc
      rw [hc]
    · simp [closingTags, hf, stripIndent_closeTag]

theorem closeAll_spec (e : SXMLEntity) (he : e.DType = EType.EndElement)
    (stack : List PendingElement) :
    ∀ (log : List (Str × Bool)) (il : Nat),
      ∃ s' : SImplementation,
        writeAll acceptAll ⟨log, il, stack⟩ (List.replicate stack.length e)
          = (List.replicate stack.length true, s') ∧
        s'.pendingStack = [] ∧
        (∀ fuel, stack.length ≤ fuel →
          FlushLoop acceptAll fuel ⟨log, il, stack⟩ = some (true, s')) ∧
        ∃ calls, s'.dsink = log ++ calls ∧ AllAccepted calls ∧
          calls.map (fun c => stripIndent c.1) = stack.flatMap closingTags := by
  induction stack with
  | nil =>
    intro log il
    refine ⟨⟨log, il, []⟩, rfl, rfl, ?_, [], by simp,
      fun c hc => absurd hc (List.not_mem_nil c), rfl⟩
    intro fuel _
    exact FlushLoop_empty _ _ _ rfl
  | cons pe rest ih =>
    intro log il
    obtain ⟨c1, il', h1, h2, h3⟩ := WriteEndElement_acceptAll_step log il pe rest e
    obtain ⟨s', g1, g2, g3, calls, g4, g5, g6⟩ := ih (log ++ c1) il'
    refine ⟨s', ?_, g2, ?_, c1 ++ calls, ?_, allAccepted_append _ _ h2 g5, ?_⟩
    · simp only [List.length_cons, List.replicate_succ, writeAll]
      rw [WriteEntity_EndElement acceptAll _ e he, h1]
      simp only [g1]
    · intro fuel hfuel
      cases fuel with
      | zero => simp at hfuel
      | succ fuel =>
        have h1' : WriteEndElement acceptAll ⟨log, il, pe :: rest⟩ defaultEntity
            = (true, ⟨log ++ c1, il', rest⟩) := h1
        simp only [FlushLoop, List.isEmpty_cons, Bool.false_eq_true, if_false, h1', Bool.not_true]
        exact g3 fuel (by simpa using hfuel)
    · rw [g4, List.append_assoc]
    · rw [List.map_append, h3, g6, List.flatMap_cons]

theorem Inv_writeAll (sink : SinkBehaviour) (evs : List SXMLEntity) :
    ∀ s : SImplementation, Inv s → Inv (writeAll sink s evs).2 := by
  induction evs with
  | nil => intro s h; exact h
  | cons e es ih => intro s h; exact ih _ (Inv_WriteEntity sink s e h)

/-- C15: in a reachable state with `n` open frames, `Flush` to an accepting sink
returns (for any fuel of at least `n` iterations), reports success and leaves
the stack empty and `IndentLevel` 0; its result is the state after `n`
`EndElement` events, all successful; and the buffers it adds, indentation
aside, are for each frame from the innermost outwards its opening tag if it was
unflushed and the closing tag with its own name. -/
theorem flush_closes_all (sink : SinkBehaviour) (s : SImplementation)
    (hr : Reachable sink s) (e : SXMLEntity) (he : e.DType = EType.EndElement) :
    ∃ s' : SImplementation,
      Flush acceptAll s = some (true, s') ∧
      (∀ fuel, s.pendingStack.length ≤ fuel → FlushLoop acceptAll fuel s = some (true, s')) ∧
      s'.pendingStack = [] ∧ s'.IndentLevel = 0 ∧
      writeAll acceptAll s (List.replicate s.pendingStack.length e)
        = (List.replicate s.pendingStack.length true, s') ∧
      ∃ calls, s'.dsink = s.dsink ++ calls ∧ AllAccepted calls ∧
        calls.map (fun c => stripIndent c.1) = s.pendingStack.flatMap closingTags := by
  obtain ⟨s', h1, h2, h3, h4⟩ := closeAll_spec e he s.pendingStack s.dsink s.IndentLevel
  have hinv : Inv s' := by
    have := Inv_writeAll acceptAll (List.replicate s.pendingStack.length e) s
      (Inv_of_Reachable sink s hr)
    have hs : (⟨s.dsink, s.IndentLevel, s.pendingStack⟩ : SImplementation) = s := rfl
    rw [hs] at h1
    rw [h1] at this
    exact this
  refine ⟨s', h3 _ (Nat.le_refl _), h3, h2, ?_, h1, h4⟩
  have := hinv.1
  rw [h2] at this
  simpa using this

theorem flush_closes_all_witness :
    ∃ s' : SImplementation,
      Flush acceptAll (writeAll acceptAll fresh
        [⟨EType.StartElement, "a".toList, []⟩, ⟨EType.StartElement, "b".toList, []⟩]).2
        = some (true, s') ∧ s'.pendingStack = [] ∧ s'.IndentLevel = 0 :=
  (flush_closes_all acceptAll
    (writeAll acceptAll fresh
      [⟨EType.StartElement, "a".toList, []⟩, ⟨EType.StartElement, "b".toList, []⟩]).2
    (Reachable_writeAll acceptAll _ fresh Reachable.fresh) defaultEntity rfl).imp
    (fun _ h => ⟨h.1, h.2.2.1, h.2.2.2.1⟩)

/-! ### Opening tags -/

theorem FlushPending_acceptAll_kinds (s : SImplementation) :
    ∃ calls, (FlushPending acceptAll s).2.dsink = s.dsink ++ calls ∧ AllAccepted calls ∧
      List.Forall₂ KindMatches (FlushPendingKinds s) (calls.map (fun c => c.1)) := by
  rcases s with ⟨log, il, _ | ⟨⟨ent, fl, hc, ht⟩, rest⟩⟩
  · exact ⟨[], by simp [FlushPending], fun c hc => absurd hc (List.not_mem_nil c),
      by simp [FlushPendingKinds]⟩
  · cases fl
    · refine ⟨[(openTagText ent, true)], by simp [FlushPending, WriteRaw, acceptAll], ?_, ?_⟩
      · intro c hc
        simp only [List.mem_singleton] at hc
        rw [hc]
      · simp only [FlushPendingKinds, Bool.not_false, if_true, List.map_cons, List.map_nil,
          List.forall₂_cons, List.Forall₂.nil, and_true]
        exact ⟨false, 0, by simp [indentIf]⟩
    · exact ⟨[], by simp [FlushPending], fun c hc => absurd hc (List.not_mem_nil c),
        by simp [FlushPendingKinds]⟩

theorem WriteEntity_acceptAll_kinds (s : SImplementation) (e : SXMLEntity) :
    ∃ calls, (WriteEntity acceptAll s e).2.dsink = s.dsink ++ calls ∧ AllAccepted calls ∧
      List.Forall₂ KindMatches (WriteEntityKinds s e) (calls.map (fun c => c.1)) := by
  obtain ⟨fc, hf1, hf2, hf3⟩ := FlushPending_acceptAll_kinds s
  have hfp := FlushPending_acceptAll s
  rcases e with ⟨t, n, a⟩
  cases t
  · refine ⟨fc, ?_, hf2, hf3⟩
    rw [show WriteEntity acceptAll s ⟨EType.StartElement, n, a⟩
        = WriteStartElement acceptAll s ⟨EType.StartElement, n, a⟩ from rfl,
      WriteStartElement_acceptAll_eq]
    exact hf1
  · rw [WriteEntity_EndElement acceptAll s _ rfl]
    rcases s with ⟨log, il, _ | ⟨pe, rest⟩⟩
    · exact ⟨[], by simp [WriteEndElement], fun c hc => absurd hc (List.not_mem_nil c),
        by simp [WriteEntityKinds]⟩
    · obtain ⟨c1, il', h1, h2, _⟩ :=
        WriteEndElement_acceptAll_step log il pe rest ⟨EType.EndElement, n, a⟩
      cases hfl : pe.flushed
      · rw [WriteEndElement_unflushed acceptAll log il pe rest _ hfl]
        refine ⟨[(indentIf (ShouldIndent ⟨log, il, rest⟩) il ++ openTagText pe.entity, true),
          (indentIf (pe.hasElementChild &&
                ShouldIndent ⟨log, ((il + 1) % SIZE_RANGE + SIZE_RANGE - 1) % SIZE_RANGE, rest⟩)
              (((il + 1) % SIZE_RANGE + SIZE_RANGE - 1) % SIZE_RANGE)
            ++ closeTagText pe.entity.DNameData, true)], ?_, ?_, ?_⟩
        · simp only [WriteRaw, acceptAll, if_true, List.append_assoc, List.singleton_append]
        · intro c hc
          simp only [List.mem_cons, List.mem_singleton, List.not_mem_nil, or_false] at hc
          rcases hc with rfl | rfl <;> rfl
        · simp only [WriteEntityKinds, closingKinds, hfl, Bool.not_false, if_true, List.map_cons,
            List.map_nil, List.forall₂_cons, List.Forall₂.nil, and_true]
          exact ⟨⟨_, _, rfl⟩, ⟨_, _, rfl⟩⟩
      · rw [WriteEndElement_flushed acceptAll log il pe rest _ hfl]
        refine ⟨[(indentIf (pe.hasElementChild &&
                ShouldIndent ⟨log, (il + SIZE_RANGE - 1) % SIZE_RANGE, rest⟩)
              ((il + SIZE_RANGE - 1) % SIZE_RANGE)
            ++ closeTagText pe.entity.DNameData, true)], ?_, ?_, ?_⟩
        · simp only [WriteRaw, acceptAll]
        · intro c hc
          simp only [List.mem_singleton] at hc
          rw [hc]
        · simp only [WriteEntityKinds, closingKinds, hfl, Bool.not_true, Bool.false_eq_true, if_false,
            List.map_cons, List.map_nil, List.forall₂_cons, List.Forall₂.nil, and_true]
          exact ⟨_, _, rfl⟩
  · refine ⟨fc ++ [(EscapeXML n, true)], ?_, ?_, ?_⟩
    · simp [WriteEntity, WriteCharData, hfp, WriteRaw, acceptAll, (markTextChild_fields _).1,
        hf1]
    · apply allAccepted_append _ _ hf2
      intro c hc
      simp only [List.mem_singleton] at hc
      rw [hc]
    · simp only [WriteEntityKinds, List.map_append, List.map_cons, List.map_nil]
      exact List.rel_append hf3 (List.Forall₂.cons rfl List.Forall₂.nil)
  · rw [WriteEntity_CompleteElement acceptAll s _ rfl, WriteCompleteElement_eq, if_pos hfp]
    refine ⟨fc ++ [(indentIf (ShouldIndent (markElementChild (FlushPending acceptAll s).2))
          (markElementChild (FlushPending acceptAll s).2).IndentLevel
        ++ completeTagText ⟨EType.CompleteElement, n, a⟩, true)], ?_, ?_, ?_⟩
    · simp [WriteRaw, acceptAll, (markElementChild_fields _).1, hf1]
    · apply allAccepted_append _ _ hf2
      intro c hc
      simp only [List.mem_singleton] at hc
      rw [hc]
    · simp only [WriteEntityKinds, List.map_append, List.map_cons, List.map_nil]
      exact List.rel_append hf3 (List.Forall₂.cons ⟨_, _, rfl⟩ List.Forall₂.nil)

theorem writeAll_acceptAll_kinds (evs : List SXMLEntity) :
    ∀ s : SImplementation,
      ∃ calls, (writeAll acceptAll s evs).2.dsink = s.dsink ++ calls ∧ AllAccepted calls ∧
        List.Forall₂ KindMatches (writeAllKinds s evs) (calls.map (fun c => c.1)) := by
  induction evs with
  | nil =>
    intro s
    exact ⟨[], by simp [writeAll], fun c hc => absurd hc (List.not_mem_nil c),
      by simp [writeAllKinds]⟩
  | cons e es ih =>
    intro s
    obtain ⟨c1, h1, h2, h3⟩ := WriteEntity_acceptAll_kinds s e
    obtain ⟨c2, g1, g2, g3⟩ := ih (WriteEntity acceptAll s e).2
    refine ⟨c1 ++ c2, ?_, allAccepted_append _ _ h2 g2, ?_⟩
    · simp only [writeAll]
      rw [g1, h1, List.append_assoc]
    · simp only [writeAllKinds, List.map_append]
      exact List.rel_append h3 g3

theorem flush_acceptAll_kinds (stack : List PendingElement) :
    ∀ (log : List (Str × Bool)) (il : Nat),
      ∃ (s' : SImplementation) (calls : List (Str × Bool)),
        FlushLoop acceptAll stack.length ⟨log, il, stack⟩ = some (true, s') ∧
        s'.dsink = log ++ calls ∧ AllAccepted calls ∧
        List.Forall₂ KindMatches (stack.flatMap closingKinds) (calls.map (fun c => c.1)) := by
  induction stack with
  | nil =>
    intro log il
    exact ⟨⟨log, il, []⟩, [], FlushLoop_empty _ _ _ rfl, by simp,
      fun c hc => absurd hc (List.not_mem_nil c), by simp⟩
  | cons pe rest ih =>
    intro log il
    obtain ⟨c1, il', h1, _, _⟩ := WriteEndElement_acceptAll_step log il pe rest defaultEntity
    obtain ⟨k1, g1, g2, g3⟩ := WriteEntity_acceptAll_kinds ⟨log, il, pe :: rest⟩ defaultEntity
    rw [WriteEntity_EndElement acceptAll _ defaultEntity rfl, h1] at g1
    have hk : k1 = c1 := (List.append_cancel_left g1).symm
    subst hk
    obtain ⟨s', c2, f1, f2, f3, f4⟩ := ih (log ++ k1) il'
    refine ⟨s', k1 ++ c2, ?_, ?_, allAccepted_append _ _ g2 f3, ?_⟩
    · simp only [List.length_cons, FlushLoop, List.isEmpty_cons, Bool.false_eq_true, if_false,
        h1, Bool.not_true]
      exact f1
    · rw [f2, List.append_assoc]
    · rw [List.flatMap_cons, List.map_append]
      exact List.rel_append g3 f4

theorem openTags_append (a b : List WriteKind) :
    openTags (a ++ b) = openTags a ++ openTags b := by
  simp [openTags, List.filterMap_append]

theorem openTags_FlushPendingKinds (s : SImplementation) :
    openTags (FlushPendingKinds s) = pendingOpen s := by
  rcases s with ⟨log, il, _ | ⟨⟨ent, fl, hc, ht⟩, rest⟩⟩
  · rfl
  · cases fl <;> rfl

theorem pendingOpen_of_flushed (rest : List PendingElement)
    (h : ∀ pe ∈ rest, pe.flushed = true) (log : List (Str × Bool)) (il : Nat) :
    pendingOpen ⟨log, il, rest⟩ = [] := by
  cases rest with
  | nil => rfl
  | cons p rest => simp [pendingOpen, h p (List.mem_cons_self _ _)]

theorem openTags_step (s : SImplementation) (e : SXMLEntity) (h : Inv s) :
    openTags (WriteEntityKinds s e) ++ pendingOpen (WriteEntity acceptAll s e).2
      = pendingOpen s ++ (if e.DType = EType.StartElement then [e] else []) := by
  rcases e with ⟨t, n, a⟩
  cases t
  · rw [show WriteEntity acceptAll s ⟨EType.StartElement, n, a⟩
        = WriteStartElement acceptAll s ⟨EType.StartElement, n, a⟩ from rfl,
      WriteStartElement_acceptAll_eq]
    simp [WriteEntityKinds, openTags_FlushPendingKinds, pendingOpen]
  · rw [WriteEntity_EndElement acceptAll s _ rfl]
    rcases s with ⟨log, il, _ | ⟨pe, rest⟩⟩
    · simp [WriteEndElement, WriteEntityKinds, openTags, pendingOpen]
    · obtain ⟨c1, il', h1, _, _⟩ :=
        WriteEndElement_acceptAll_step log il pe rest ⟨EType.EndElement, n, a⟩
      rw [h1, pendingOpen_of_flushed rest (fun x hx => h.2.1 x hx)]
      cases hfl : pe.flushed <;>
        simp [WriteEntityKinds, closingKinds, openTags, pendingOpen, hfl]
  · rcases s with ⟨log, il, _ | ⟨⟨ent, fl, hc, ht⟩, rest⟩⟩
    · simp [WriteEntity, WriteCharData, FlushPending, markTextChild, WriteRaw, WriteEntityKinds,
        FlushPendingKinds, openTags, pendingOpen]
    · cases fl <;>
        simp [WriteEntity, WriteCharData, FlushPending, markTextChild, WriteRaw, acceptAll,
          WriteEntityKinds, FlushPendingKinds, openTags, pendingOpen]
  · rcases s with ⟨log, il, _ | ⟨⟨ent, fl, hc, ht⟩, rest⟩⟩
    · simp [WriteEntity, WriteCompleteElement, FlushPending, markElementChild, WriteRaw,
        WriteEntityKinds, FlushPendingKinds, openTags, pendingOpen]
    · cases fl <;>
        simp [WriteEntity, WriteCompleteElement, FlushPending, markElementChild, WriteRaw,
          acceptAll, WriteEntityKinds, FlushPendingKinds, openTags, pendingOpen]

theorem openTags_writeAll (evs : List SXMLEntity) :
    ∀ s : SImplementation, Inv s →
      openTags (writeAllKinds s evs) ++ pendingOpen (writeAll acceptAll s evs).2
        = pendingOpen s ++ evs.filter (fun e => decide (e.DType = EType.StartElement)) := by
  induction evs with
  | nil => intro s _; simp [writeAllKinds, writeAll, openTags]
  | cons e es ih =>
    intro s h
    have h1 := openTags_step s e h
    have h2 := ih _ (Inv_WriteEntity acceptAll s e h)
    simp only [writeAllKinds, writeAll, openTags_append, List.append_assoc]
    rw [h2, ← List.append_assoc, h1, List.append_assoc]
    by_cases hs : e.DType = EType.StartElement <;> simp [hs, List.filter_cons]

theorem openTags_FlushKinds (s : SImplementation) (h : Inv s) :
    openTags (FlushKinds s) = pendingOpen s := by
  rcases s with ⟨log, il, _ | ⟨pe, rest⟩⟩
  · rfl
  · have hrest : ∀ l : List PendingElement, (∀ x ∈ l, x.flushed = true) →
        openTags (l.flatMap closingKinds) = [] := by
      intro l
      induction l with
      | nil => intro _; rfl
      | cons x l ih =>
        intro hl
        rw [List.flatMap_cons, openTags_append, ih (fun y hy => hl y (List.mem_cons_of_mem _ hy))]
        simp [closingKinds, hl x (List.mem_cons_self _ _), openTags]
    simp only [FlushKinds, List.flatMap_cons, openTags_append]
    rw [hrest rest (fun x hx => h.2.1 x hx)]
    cases hfl : pe.flushed <;> simp [closingKinds, openTags, pendingOpen, hfl]

theorem pendingOpen_after_start (s : SImplementation) (e : SXMLEntity)
    (he : e.DType = EType.StartElement) :
    pendingOpen (WriteEntity acceptAll s e).2 = [e] := by
  have h : WriteEntity acceptAll s e = WriteStartElement acceptAll s e := by
    simp [WriteEntity, he]
  rw [h, WriteStartElement_acceptAll_eq]
  rfl

/-- C17: for every event sequence written to a fresh writer with an accepting
sink and followed by `Flush`: every sink call is accepted and is of the kind the
code site gives it; the opening tags written are, in order, exactly those of the
`StartElement` events of the sequence, one each, so their number is the number
of `StartElement` events; and right after a `StartElement` event the opening
tags written are those of the earlier `StartElement` events only, the new
element being the unflushed top frame. -/
theorem one_opening_tag_per_element (evs : List SXMLEntity) :
    ∃ s' : SImplementation,
      Flush acceptAll (writeAll acceptAll fresh evs).2 = some (true, s') ∧
      AllAccepted s'.dsink ∧
      List.Forall₂ KindMatches
        (writeAllKinds fresh evs ++ FlushKinds (writeAll acceptAll fresh evs).2) (sinkCalls s') ∧
      openTags (writeAllKinds fresh evs ++ FlushKinds (writeAll acceptAll fresh evs).2)
        = evs.filter (fun e => decide (e.DType = EType.StartElement)) ∧
      (openTags (writeAllKinds fresh evs ++ FlushKinds (writeAll acceptAll fresh evs).2)).length
        = countStart evs ∧
      (∀ (pre : List SXMLEntity) (e : SXMLEntity), e.DType = EType.StartElement →
        openTags (writeAllKinds fresh (pre ++ [e]))
            = pre.filter (fun e => decide (e.DType = EType.StartElement)) ∧
          pendingOpen (writeAll acceptAll fresh (pre ++ [e])).2 = [e]) := by
  obtain ⟨c1, h1, h2, h3⟩ := writeAll_acceptAll_kinds evs fresh
  obtain ⟨s', c2, g1, g2, g3, g4⟩ :=
    flush_acceptAll_kinds (writeAll acceptAll fresh evs).2.pendingStack
      (writeAll acceptAll fresh evs).2.dsink (writeAll acceptAll fresh evs).2.IndentLevel
  have hfresh : fresh.dsink = [] := rfl
  rw [hfresh, List.nil_append] at h1
  have hopen : openTags (writeAllKinds fresh evs ++ FlushKinds (writeAll acceptAll fresh evs).2)
      = evs.filter (fun e => decide (e.DType = EType.StartElement)) := by
    have hinv := Inv_writeAll acceptAll evs fresh Inv_fresh
    have := openTags_writeAll evs fresh Inv_fresh
    rw [openTags_append, openTags_FlushKinds _ hinv, this]
    rfl
  refine ⟨s', g1, ?_, ?_, hopen, ?_, ?_⟩
  · rw [g2, h1]
    exact allAccepted_append _ _ h2 g3
  · have hc : sinkCalls s' = c1.map (fun c => c.1) ++ c2.map (fun c => c.1) := by
      simp [sinkCalls, g2, h1]
    rw [hc]
    exact List.rel_append h3 g4
  · rw [hopen, countStart, List.countP_eq_length_filter]
  · intro pre e he
    have hlast : pendingOpen (writeAll acceptAll fresh (pre ++ [e])).2 = [e] := by
      rw [writeAll_append]
      exact pendingOpen_after_start _ e he
    refine ⟨?_, hlast⟩
    have := openTags_writeAll (pre ++ [e]) fresh Inv_fresh
    rw [hlast, List.filter_append] at this
    have hpf : pendingOpen fresh = [] := rfl
    rw [hpf, List.nil_append] at this
    have he' : List.filter (fun e => decide (e.DType = EType.StartElement)) [e] = [e] := by
      simp [he]
    rw [he'] at this
    exact List.append_cancel_right this

theorem one_opening_tag_per_element_witness :
    openTags (writeAllKinds fresh
        ([⟨EType.StartElement, "a".toList, []⟩, ⟨EType.CharData, "x".toList, []⟩]
          ++ [⟨EType.StartElement, "b".toList, []⟩]))
      = [⟨EType.StartElement, "a".toList, []⟩] :=
  (one_opening_tag_per_element []).elim (fun _ h =>
    (h.2.2.2.2.2
      [⟨EType.StartElement, "a".toList, []⟩, ⟨EType.CharData, "x".toList, []⟩]
      ⟨EType.StartElement, "b".toList, []⟩ rfl).1)

end XMLWriter
